import Mathlib

/-!
Verification of the modulegraph2 core against its design specification.

Part 1 embeds the bytecode analyzer
(src/PyInstaller/lib/modulegraph2/_bytecode_tools.py):
`extract_single` models `_extract_single`, scanning one code object's
instruction stream, and `extract_bytecode_info` models the iterative
work-queue walk over all nested code objects.

Part 2 embeds the generic object graph (src/modulegraph2/_objectgraph.py):
an identifier-keyed node dictionary, a root set and an edge dictionary,
with `add_node`, `add_root`, `add_edge`, `edge_data`, `outgoing`,
`incoming` and the depth-first `iter_graph` traversal.

Python dictionaries are modelled as insertion-ordered association lists,
Python sets of strings as insertion-ordered duplicate-free lists, Python
exceptions as `Except` values, and Python's negative-index list access as
`pyGet`.  Mutating methods are modelled as functions returning the pair of
the call's outcome and the state after the call, so that a raise that
would leave the object mutated would be observable.
-/

/-- One entry of the instruction stream, as produced by
`dis.get_instructions`: a mnemonic and an optional numeric argument. -/
structure Instr where
  opname : String
  arg : Option Nat
deriving DecidableEq

mutual

/-- A constant-pool entry of a code object.  The analyzer only inspects
constants that are `None`, tuples of names, or nested code objects; the
other shapes are carried opaquely. -/
inductive Const where
  | none
  | int (i : Int)
  | str (s : String)
  | tuple (xs : List String)
  | code (c : Code)

/-- A compiled code object: constant pool, names table, and the ordered
instruction stream (the fields of `types.CodeType` the analyzer reads). -/
inductive Code where
  | mk (co_consts : ConstList) (co_names : List String) (instructions : List Instr)

/-- A list of constants, declared mutually with `Const` so that the
constant pool can contain nested code objects. -/
inductive ConstList where
  | nil
  | cons (hd : Const) (tl : ConstList)

end

def Code.co_consts : Code → ConstList
  | .mk cs _ _ => cs

def Code.co_names : Code → List String
  | .mk _ ns _ => ns

def Code.instructions : Code → List Instr
  | .mk _ _ ins => ins

/-- Zero-based indexing into a constant pool, mirroring `co_consts[i]`
with a non-negative index; `Option.none` stands for an `IndexError`. -/
def ConstList.get? : ConstList → Nat → Option Const
  | .nil, _ => Option.none
  | .cons c _, 0 => some c
  | .cons _ tl, n + 1 => tl.get? n

def ConstList.toList : ConstList → List Const
  | .nil => []
  | .cons c tl => c :: tl.toList

mutual

/-- Structural equality of constants, standing in for Python's equality
on set members and dictionary keys of code objects. -/
def constBeq : Const → Const → Bool
  | .none, .none => true
  | .int a, .int b => a == b
  | .str a, .str b => a == b
  | .tuple a, .tuple b => a == b
  | .code a, .code b => codeBeq a b
  | _, _ => false

def codeBeq : Code → Code → Bool
  | .mk cs1 ns1 is1, .mk cs2 ns2 is2 => constBeqList cs1 cs2 && ns1 == ns2 && is1 == is2

def constBeqList : ConstList → ConstList → Bool
  | .nil, .nil => true
  | .cons a as, .cons b bs => constBeq a b && constBeqList as bs
  | _, _ => false

end

/-- Membership of a constant in a Python set of constants. -/
def constMem (l : List Const) (k : Const) : Bool :=
  l.any (fun x => constBeq x k)

/-- Adding an element to a Python set of constants. -/
def constSetAdd (l : List Const) (k : Const) : List Const :=
  if constMem l k then l else l ++ [k]

/-- Union of two Python sets of constants (the `|=` operator). -/
def constSetUnion (a b : List Const) : List Const :=
  b.foldl constSetAdd a

/-- Adding an element to a Python set of strings, modelled as an
insertion-ordered duplicate-free list. -/
def sinsert (l : List String) (s : String) : List String :=
  if s ∈ l then l else l ++ [s]

/-- Union of two Python sets of strings (the `|=` operator). -/
def sunion (a b : List String) : List String :=
  b.foldl sinsert a

/-- Python's list indexing with negative-index wraparound: `l[i]` for an
`int` index; `Option.none` stands for an `IndexError`. -/
def pyGet (l : List α) (i : Int) : Option α :=
  if 0 ≤ i then l.get? i.toNat
  else
    let j : Int := i + l.length
    if 0 ≤ j then l.get? j.toNat else Option.none

/-- The `ImportInfo` record built for each `IMPORT_NAME` instruction.
`import_level` stores the constant found at the level operand unchanged,
as the source stores `code.co_consts[level_offset]` without conversion. -/
structure ImportInfo where
  import_module : String
  import_level : Const
  import_names : List String
  star_import : Bool
  is_in_function : Bool

/-- The `is_optional` property of `ImportInfo`. -/
def ImportInfo.is_optional (i : ImportInfo) : Bool :=
  i.is_in_function

/-- The local accumulators of `_extract_single`: the import records and
the name sets collected so far, plus the sets of constants classified as
function bodies and as class bodies. -/
structure SingleState where
  imports : List ImportInfo
  globals_written : List String
  globals_read : List String
  func_codes : List Const
  class_codes : List Const

def initialSingleState : SingleState :=
  ⟨[], [], [], [], []⟩

/-- The body of `_extract_single`'s `for offset, inst in enumerate(...)`
loop for one instruction.  Failed `assert`s and out-of-range indexing
raise, modelled as `Except.error`. -/
def singleStep (code : Code) (instructions : List Instr)
    (is_function_code is_class_code : Bool) (offset : Nat) (inst : Instr)
    (st : SingleState) : Except String SingleState :=
  if inst.opname = "IMPORT_NAME" then
    -- IMPORT_NAME pops two constants from the stack: fromlist and level
    match pyGet instructions ((offset : Int) - 1) with
    | Option.none => .error "IndexError: instructions[offset - 1]"
    | some i1 =>
      if i1.opname = "LOAD_CONST" then
        match pyGet instructions ((offset : Int) - 2) with
        | Option.none => .error "IndexError: instructions[offset - 2]"
        | some i2 =>
          if i2.opname = "LOAD_CONST" then
            match i1.arg with
            | Option.none => .error "AssertionError: from_offset is None"
            | some from_offset =>
              match i2.arg with
              | Option.none => .error "AssertionError: level_offset is None"
              | some level_offset =>
                match code.co_consts.get? from_offset with
                | Option.none => .error "IndexError: co_consts[from_offset]"
                | some fromlist =>
                  match code.co_consts.get? level_offset with
                  | Option.none => .error "IndexError: co_consts[level_offset]"
                  | some level =>
                    match inst.arg with
                    | Option.none => .error "AssertionError: name_offset is None"
                    | some name_offset =>
                      match code.co_names.get? name_offset with
                      | Option.none => .error "IndexError: co_names[name_offset]"
                      | some import_module =>
                        match fromlist with
                        | Const.none =>
                          let st' := { st with imports := st.imports ++
                                [⟨import_module, level, [], false, is_function_code⟩] }
                          if !(is_function_code || is_class_code) then
                            .ok { st' with
                              globals_written := sunion st'.globals_written [] }
                          else
                            .ok st'
                        | Const.tuple xs =>
                          let import_names := (xs.filter (fun s => s != "*")).dedup
                          let st' := { st with imports := st.imports ++
                                [⟨import_module, level, import_names, xs.contains "*",
                                  is_function_code⟩] }
                          if !(is_function_code || is_class_code) then
                            .ok { st' with
                              globals_written := sunion st'.globals_written import_names }
                          else
                            .ok st'
                        | _ => .error "AssertionError: fromlist is not None or a tuple"
          else .error "AssertionError: instructions[offset - 2] is not LOAD_CONST"
      else .error "AssertionError: instructions[offset - 1] is not LOAD_CONST"
  else if (["STORE_NAME", "STORE_NAME"] : List String).contains inst.opname then
    if is_class_code && inst.opname == "STORE_NAME" then
      .ok st
    else
      match inst.arg with
      | Option.none => .error "AssertionError: const_offset is None"
      | some const_offset =>
        match code.co_names.get? const_offset with
        | Option.none => .error "IndexError: co_names[const_offset]"
        | some n => .ok { st with globals_written := sinsert st.globals_written n }
  else if (["LOAD_GLOBAL", "LOAD_NAME"] : List String).contains inst.opname then
    if is_class_code && inst.opname == "LOAD_NAME" then
      .ok st
    else
      match inst.arg with
      | Option.none => .error "AssertionError: const_offset is None"
      | some const_offset =>
        match code.co_names.get? const_offset with
        | Option.none => .error "IndexError: co_names[const_offset]"
        | some n => .ok { st with globals_read := sinsert st.globals_read n }
  else if inst.opname = "MAKE_FUNCTION" then
    match pyGet instructions ((offset : Int) - 2) with
    | Option.none => .error "IndexError: instructions[offset - 2]"
    | some i2 =>
      match i2.arg with
      | Option.none => .error "AssertionError: const_offset is None"
      | some const_offset =>
        match code.co_consts.get? const_offset with
        | Option.none => .error "IndexError: co_consts[const_offset]"
        | some k =>
          if 3 ≤ offset &&
              ((instructions.get? (offset - 3)).map Instr.opname ==
                some "LOAD_BUILD_CLASS") then
            .ok { st with class_codes := constSetAdd st.class_codes k }
          else
            .ok { st with func_codes := constSetAdd st.func_codes k }
  else
    .ok st

/-- The instruction loop of `_extract_single`, scanning the remaining
instructions while `offset` tracks the position in the full stream. -/
def singleLoop (code : Code) (instructions : List Instr)
    (is_function_code is_class_code : Bool) :
    Nat → List Instr → SingleState → Except String SingleState
  | _, [], st => .ok st
  | offset, inst :: rest, st =>
    match singleStep code instructions is_function_code is_class_code offset inst st with
    | .error e => .error e
    | .ok st' =>
      singleLoop code instructions is_function_code is_class_code (offset + 1) rest st'

/-- Model of `_extract_single`: scan one code object's instruction
stream, collecting imports, global reads/writes, and the nested code
constants classified as function or class bodies. -/
def extract_single (code : Code) (is_function_code is_class_code : Bool) :
    Except String SingleState :=
  singleLoop code code.instructions is_function_code is_class_code
    0 code.instructions initialSingleState

/-- Model of `_is_code_for_function`: a code object is function code when
it, or any code object on its parent chain, has been classified as a
function body. -/
def is_code_for_function (code : Code) (parents : List Code)
    (func_codes : List Const) : Bool :=
  constMem func_codes (.code code) || parents.any (fun p => constMem func_codes (.code p))

/-- The accumulators of `extract_bytecode_info`. -/
structure ExtractState where
  all_imports : List ImportInfo
  all_globals_written : List String
  all_globals_read : List String
  all_func_codes : List Const
  all_class_codes : List Const

/-- The nested code objects found in a code object's constant pool, in
pool order (the values `_all_code_objects` appends to its work queue). -/
def Code.childCodes (c : Code) : List Code :=
  c.co_consts.toList.filterMap (fun k =>
    match k with
    | .code cc => some cc
    | _ => Option.none)

mutual

/-- The number of code objects in a code object's tree; used as fuel for
the work-queue loop, which pops exactly one code object per step. -/
def Code.countCodes : Code → Nat
  | .mk cs _ _ => 1 + ConstList.countCodes cs

def Const.countCodes : Const → Nat
  | .code c => Code.countCodes c
  | _ => 0

def ConstList.countCodes : ConstList → Nat
  | .nil => 0
  | .cons c tl => Const.countCodes c + ConstList.countCodes tl

end

/-- The work-queue loop of `extract_bytecode_info` fused with the
`_all_code_objects` generator: each queue entry carries the parent chain
that the source keeps in its `parents` dictionary (`parents[value] =
parents.get(current, []) + [value]`, so a chain contains the code object
itself but not the root).  The fuel argument is set by the caller to the
number of code objects in the tree, which is exactly the number of pops
the queue performs, so the fuel branch is unreachable. -/
def extractLoop :
    Nat → List (Code × List Code) → ExtractState →
    Except String (List ImportInfo × List String × List String)
  | _, [], acc =>
    .ok (acc.all_imports, acc.all_globals_written, acc.all_globals_read)
  | 0, _ :: _, _ => .error "fuel exhausted"
  | fuel + 1, (current, parents) :: rest, acc =>
    match extract_single current
        (is_code_for_function current parents acc.all_func_codes)
        (constMem acc.all_class_codes (.code current)) with
    | .error e => .error e
    | .ok st =>
      extractLoop fuel
        (rest ++ current.childCodes.map (fun ch => (ch, parents ++ [ch])))
        { all_imports := acc.all_imports ++ st.imports
          all_globals_written := sunion acc.all_globals_written st.globals_written
          all_globals_read := sunion acc.all_globals_read st.globals_read
          all_func_codes := constSetUnion acc.all_func_codes st.func_codes
          all_class_codes := constSetUnion acc.all_class_codes st.class_codes }

/-- Model of `extract_bytecode_info`: walk the whole code-object tree
iteratively and merge every per-object result. -/
def extract_bytecode_info (code : Code) :
    Except String (List ImportInfo × List String × List String) :=
  extractLoop code.countCodes [(code, [])] ⟨[], [], [], [], []⟩

/-- The number of code objects below a work queue: the exact number of
pops the queue will perform, i.e. the fuel `extract_bytecode_info`
passes to the loop. -/
def queueCodes (q : List (Code × List Code)) : Nat :=
  (q.map (fun p => p.1.countCodes)).sum

/-- Convenience constructor for constant pools. -/
def clist : List Const → ConstList
  | [] => .nil
  | c :: cs => .cons c (clist cs)

/-- A module code object for a module-scope `import a.b.c` (followed by
the `STORE_NAME a` the compiler emits for the statement). -/
def modImportABC : Code :=
  .mk (clist [.int 0, .none]) ["a.b.c", "a"]
    [⟨"LOAD_CONST", some 0⟩, ⟨"LOAD_CONST", some 1⟩,
     ⟨"IMPORT_NAME", some 0⟩, ⟨"STORE_NAME", some 1⟩]

/-- The body of a function containing `from . import x` (level 1,
fromlist `("x",)`, empty module name) followed by a local store. -/
def funFromImportX : Code :=
  .mk (clist [.int 1, .tuple ["x"]]) [""]
    [⟨"LOAD_CONST", some 0⟩, ⟨"LOAD_CONST", some 1⟩,
     ⟨"IMPORT_NAME", some 0⟩, ⟨"STORE_FAST", some 0⟩]

/-- A module code object defining one function `f` whose body is
`funFromImportX`; `MAKE_FUNCTION` is preceded by the code constant and
the qualified-name constant, with no `LOAD_BUILD_CLASS` before them. -/
def modDefF : Code :=
  .mk (clist [.code funFromImportX, .str "f"]) ["f"]
    [⟨"LOAD_CONST", some 0⟩, ⟨"LOAD_CONST", some 1⟩,
     ⟨"MAKE_FUNCTION", some 0⟩, ⟨"STORE_NAME", some 0⟩]

/-- A module code object whose only effect is a `STORE_GLOBAL` of the
name `g1` at module scope. -/
def modStoreGlobal : Code :=
  .mk (clist []) ["g1"] [⟨"STORE_GLOBAL", some 0⟩]

/-- A module code object for a module-scope `from pkg import *`. -/
def modStarImport : Code :=
  .mk (clist [.int 0, .tuple ["*"]]) ["pkg"]
    [⟨"LOAD_CONST", some 0⟩, ⟨"LOAD_CONST", some 1⟩,
     ⟨"IMPORT_NAME", some 0⟩, ⟨"IMPORT_STAR", Option.none⟩]

/-- A code object whose `IMPORT_NAME` is the very first instruction, so
it has no preceding instructions at all; the two trailing `LOAD_CONST`s
are what Python's negative indexing reads instead. -/
def modWrapImport : Code :=
  .mk (clist [.int 0, .none]) ["m"]
    [⟨"IMPORT_NAME", some 0⟩, ⟨"LOAD_CONST", some 0⟩, ⟨"LOAD_CONST", some 1⟩]

/-- A function body that reads the global `os` and stores the name `y`
with `STORE_NAME`. -/
def funReadWrite : Code :=
  .mk (clist []) ["os", "y"]
    [⟨"LOAD_GLOBAL", some 0⟩, ⟨"STORE_NAME", some 1⟩]

/-- A module code object defining one function `f` whose body is
`funReadWrite`. -/
def modDefReadWrite : Code :=
  .mk (clist [.code funReadWrite, .str "f"]) ["f"]
    [⟨"LOAD_CONST", some 0⟩, ⟨"LOAD_CONST", some 1⟩,
     ⟨"MAKE_FUNCTION", some 0⟩, ⟨"STORE_NAME", some 0⟩]

/-- A malformed unit: an `IMPORT_NAME` at offset 2 preceded by two
`NOP`s instead of the two expected constant loads. -/
def modBadImport : Code :=
  .mk (clist []) ["m"]
    [⟨"NOP", Option.none⟩, ⟨"NOP", Option.none⟩, ⟨"IMPORT_NAME", some 0⟩]

/-- A name that some `STORE_NAME` instruction of the code object can
store: the only way a name enters `globals_written` while scanning
function code. -/
def writeTarget (code : Code) (n : String) : Prop :=
  ∃ inst ∈ code.instructions, inst.opname = "STORE_NAME" ∧
    ∃ a, inst.arg = some a ∧ code.co_names.get? a = some n

/-- The `GraphNode` protocol: any node type exposing a stable string
identifier. -/
class GraphNode (T : Type) where
  identifier : T → String

/-- The Python exceptions raised by `ObjectGraph` methods. -/
inductive PyError where
  | keyError (msg : String)
  | valueError (msg : String)
deriving DecidableEq

/-- The state of an `ObjectGraph`: the root-identifier set, the
identifier-keyed node dictionary and the pair-keyed edge dictionary,
all modelled as insertion-ordered lists. -/
structure ObjectGraph (T A : Type) where
  _roots : List String
  _nodes : List (String × T)
  _edges : List ((String × String) × A)

/-- Dictionary lookup (`d[k]` / `d.get(k)`): the value at the first
matching key, if any. -/
def dictGet [DecidableEq κ] (l : List (κ × α)) (k : κ) : Option α :=
  (l.find? (fun p => decide (p.1 = k))).map Prod.snd

/-- Dictionary assignment (`d[k] = v`): replace in place when the key
exists, append otherwise. -/
def dictSet [DecidableEq κ] (l : List (κ × α)) (k : κ) (v : α) : List (κ × α) :=
  match l with
  | [] => [(k, v)]
  | (k', v') :: rest =>
    if k' = k then (k', v) :: rest else (k', v') :: dictSet rest k v

/-- An argument of type `Union[str, T]`. -/
inductive NodeRef (T : Type) where
  | str (s : String)
  | node (t : T)

/-- The identifier a `Union[str, T]` argument is looked up under. -/
def refIdent [GraphNode T] : NodeRef T → String
  | .str s => s
  | .node t => GraphNode.identifier t

/-- Model of `ObjectGraph.find_node`: pure lookup, never raises. -/
def find_node [GraphNode T] (g : ObjectGraph T A) (node : NodeRef T) : Option T :=
  match node with
  | .str s => dictGet g._nodes s
  | .node t => dictGet g._nodes (GraphNode.identifier t)

/-- Model of `ObjectGraph.add_root`.  The second component is the state
after the call; on a raise the state is returned as it was when the
exception left the method. -/
def add_root [GraphNode T] (g : ObjectGraph T A) (node : NodeRef T) :
    Except PyError Unit × ObjectGraph T A :=
  match find_node g node with
  | Option.none => (.error (.keyError "Adding non-existing \x7bnode!r\x7d as root"), g)
  | some value =>
    (.ok (), { g with _roots := sinsert g._roots (GraphNode.identifier value) })

/-- Model of `ObjectGraph.add_node`. -/
def add_node [GraphNode T] (g : ObjectGraph T A) (node : T) :
    Except PyError Unit × ObjectGraph T A :=
  match dictGet g._nodes (GraphNode.identifier node) with
  | some _ =>
    (.error (.valueError ("Already have node with name " ++ GraphNode.identifier node)), g)
  | Option.none =>
    (.ok (), { g with _nodes := dictSet g._nodes (GraphNode.identifier node) node })

/-- Model of `ObjectGraph.add_edge`. -/
def add_edge [GraphNode T] (g : ObjectGraph T A) (source destination : T)
    (edge_attributes : A) (merge_attributes : Option (A → A → A)) :
    Except PyError Unit × ObjectGraph T A :=
  match find_node g (.node source), find_node g (.node destination) with
  | Option.none, _ => (.error (.keyError "Source \x7bsource!r\x7d not found"), g)
  | some _, Option.none => (.error (.keyError "Destination \x7bdestination!r\x7d not found"), g)
  | some from_node, some to_node =>
    let key := (GraphNode.identifier from_node, GraphNode.identifier to_node)
    match dictGet g._edges key with
    | Option.none => (.ok (), { g with _edges := dictSet g._edges key edge_attributes })
    | some current_edge =>
      match merge_attributes with
      | some m =>
        (.ok (), { g with _edges := dictSet g._edges key (m current_edge edge_attributes) })
      | Option.none =>
        (.error (.valueError ("Edge between " ++ key.1 ++ " and " ++ key.2 ++
          " already exists")), g)

/-- Model of `ObjectGraph.edge_data`. -/
def edge_data [GraphNode T] (g : ObjectGraph T A) (source destination : NodeRef T) :
    Except PyError A × ObjectGraph T A :=
  match find_node g source, find_node g destination with
  | Option.none, _ => (.error (.keyError "Source \x7bsource!r\x7d not found"), g)
  | some _, Option.none => (.error (.keyError "Destination \x7bdestination!r\x7d not found"), g)
  | some f, some t =>
    match dictGet g._edges (GraphNode.identifier f, GraphNode.identifier t) with
    | some a => (.ok a, g)
    | Option.none =>
      (.error (.keyError ("There is no edge between " ++ GraphNode.identifier f ++
        " and " ++ GraphNode.identifier t)), g)

/-- The loop of `ObjectGraph.outgoing`: for every edge leaving `srcId`,
yield the edge attribute and the stored destination node; a missing
destination node raises, as `self._nodes[to_node]` would. -/
def outgoingAux [GraphNode T] (nodes : List (String × T)) (srcId : String) :
    List ((String × String) × A) → Except PyError (List (A × T))
  | [] => .ok []
  | ((f, t), a) :: rest =>
    if f = srcId then
      match dictGet nodes t with
      | Option.none => .error (.keyError t)
      | some nd =>
        match outgoingAux nodes srcId rest with
        | .error e => .error e
        | .ok l => .ok ((a, nd) :: l)
    else outgoingAux nodes srcId rest

/-- Model of `ObjectGraph.outgoing`: empty when the node is absent. -/
def outgoing [GraphNode T] (g : ObjectGraph T A) (source : NodeRef T) :
    Except PyError (List (A × T)) :=
  match find_node g source with
  | Option.none => .ok []
  | some node => outgoingAux g._nodes (GraphNode.identifier node) g._edges

/-- The loop of `ObjectGraph.incoming`. -/
def incomingAux [GraphNode T] (nodes : List (String × T)) (dstId : String) :
    List ((String × String) × A) → Except PyError (List (A × T))
  | [] => .ok []
  | ((f, t), a) :: rest =>
    if t = dstId then
      match dictGet nodes f with
      | Option.none => .error (.keyError f)
      | some nd =>
        match incomingAux nodes dstId rest with
        | .error e => .error e
        | .ok l => .ok ((a, nd) :: l)
    else incomingAux nodes dstId rest

/-- Model of `ObjectGraph.incoming`: empty when the node is absent. -/
def incoming [GraphNode T] (g : ObjectGraph T A) (destination : NodeRef T) :
    Except PyError (List (A × T)) :=
  match find_node g destination with
  | Option.none => .ok []
  | some node => incomingAux g._nodes (GraphNode.identifier node) g._edges

/-- The identifiers of the stored node values, as a finite set; the
traversal's visited set can only grow inside this set, which bounds the
recursion of `iter_graph`. -/
def nodeIdents [GraphNode T] (g : ObjectGraph T A) : Finset String :=
  (g._nodes.map (fun p => GraphNode.identifier p.2)).toFinset

theorem dictGet_mem [DecidableEq κ] {l : List (κ × α)} {k : κ} {v : α}
    (h : dictGet l k = some v) : (k, v) ∈ l := by
  unfold dictGet at h
  cases hf : l.find? (fun p => decide (p.1 = k)) with
  | none => rw [hf] at h; exact absurd h (by simp)
  | some p =>
    rw [hf] at h
    have hp := List.find?_some hf
    have hm := List.mem_of_find?_eq_some hf
    simp at h hp
    cases p with
    | mk k' v' =>
      simp at hp h
      rw [hp, h] at hm
      exact hm

theorem identifier_mem_nodeIdents [GraphNode T] {g : ObjectGraph T A} {k : String} {v : T}
    (h : dictGet g._nodes k = some v) : GraphNode.identifier v ∈ nodeIdents g := by
  unfold nodeIdents
  rw [List.mem_toFinset, List.mem_map]
  exact ⟨(k, v), dictGet_mem h, rfl⟩

mutual

/-- Model of the recursive generator `ObjectGraph.iter_graph` for an
explicit start identifier: the shared visited set is threaded through
and returned (with a certificate that it only grows, which bounds the
recursion). -/
def iterFrom [GraphNode T] (g : ObjectGraph T A) (ident : String) (visited : Finset String) :
    Except PyError (List T × { v : Finset String // visited ⊆ v }) :=
  match h : dictGet g._nodes ident with
  | Option.none => .error (.keyError ("Start node " ++ ident ++ " not found"))
  | some start =>
    if hv : GraphNode.identifier start ∈ visited then
      .ok ([], ⟨visited, Finset.Subset.refl visited⟩)
    else
      match outgoing g (.node start) with
      | .error e => .error e
      | .ok pairs =>
        match iterList g (pairs.map (fun p => GraphNode.identifier p.2))
            (insert (GraphNode.identifier start) visited) with
        | .error e => .error e
        | .ok (l, ⟨v, hp⟩) =>
          .ok (start :: l, ⟨v, (Finset.subset_insert _ _).trans hp⟩)
termination_by ((nodeIdents g \ visited).card, 0)
decreasing_by
  apply Prod.Lex.left
  apply Finset.card_lt_card
  constructor
  · exact Finset.sdiff_subset_sdiff (Finset.Subset.refl _) (Finset.subset_insert _ _)
  · intro hsub
    have hx : GraphNode.identifier start ∈ nodeIdents g \ visited :=
      Finset.mem_sdiff.mpr ⟨identifier_mem_nodeIdents h, hv⟩
    have := hsub hx
    rw [Finset.mem_sdiff] at this
    exact this.2 (Finset.mem_insert_self _ _)

/-- Model of the `for node in ...: yield from self.iter_graph(...)`
loops of `iter_graph`, taking the identifiers to traverse in order. -/
def iterList [GraphNode T] (g : ObjectGraph T A) (idents : List String)
    (visited : Finset String) :
    Except PyError (List T × { v : Finset String // visited ⊆ v }) :=
  match idents with
  | [] => .ok ([], ⟨visited, Finset.Subset.refl visited⟩)
  | i :: rest =>
    match iterFrom g i visited with
    | .error e => .error e
    | .ok (l1, ⟨v1, h1⟩) =>
      match iterList g rest v1 with
      | .error e => .error e
      | .ok (l2, ⟨v2, h2⟩) => .ok (l1 ++ l2, ⟨v2, h1.trans h2⟩)
termination_by ((nodeIdents g \ visited).card, idents.length + 1)
decreasing_by
  · exact Prod.Lex.right _ (Nat.succ_pos _)
  · have hle : (nodeIdents g \ v1).card ≤ (nodeIdents g \ visited).card :=
      Finset.card_le_card (Finset.sdiff_subset_sdiff (Finset.Subset.refl _) h1)
    rcases lt_or_eq_of_le hle with hlt | heq
    · exact Prod.Lex.left _ _ hlt
    · rw [heq]
      exact Prod.Lex.right _ (Nat.lt_succ_self _)

end

/-- Model of `ObjectGraph.iter_graph`: start from every root when no
start node is given, else from the given node. -/
def iter_graph [GraphNode T] (g : ObjectGraph T A) (node : Option (NodeRef T)) :
    Except PyError (List T) :=
  match node with
  | Option.none =>
    match iterList g g._roots ∅ with
    | .error e => .error e
    | .ok (l, _) => .ok l
  | some ref =>
    match iterFrom g (refIdent ref) ∅ with
    | .error e => .error e
    | .ok (l, _) => .ok l

/-- The state invariants of the graph: the node dictionary is keyed by
its values' identifiers with no duplicate keys, every root identifier is
a node key, and both endpoints of every edge key are node keys. -/
def Invariant [GraphNode T] (g : ObjectGraph T A) : Prop :=
  (∀ p ∈ g._nodes, p.1 = GraphNode.identifier p.2) ∧
  (g._nodes.map Prod.fst).Nodup ∧
  (∀ r ∈ g._roots, (dictGet g._nodes r).isSome = true) ∧
  (∀ e ∈ g._edges, (dictGet g._nodes e.1.1).isSome = true ∧
    (dictGet g._nodes e.1.2).isSome = true)

/-- One call of the public mutating/querying interface. -/
inductive GraphOp (T A : Type) where
  | addNode (t : T)
  | addRoot (r : NodeRef T)
  | addEdge (s d : T) (attr : A) (m : Option (A → A → A))
  | edgeData (s d : NodeRef T)

/-- The state after one interface call (on a raise, the state the
exception left behind). -/
def applyOp [GraphNode T] (g : ObjectGraph T A) : GraphOp T A → ObjectGraph T A
  | .addNode t => (add_node g t).2
  | .addRoot r => (add_root g r).2
  | .addEdge s d attr m => (add_edge g s d attr m).2
  | .edgeData s d => (edge_data g s d).2

/-- The freshly-constructed graph (`ObjectGraph.__init__`). -/
def initialGraph (T A : Type) : ObjectGraph T A :=
  ⟨[], [], []⟩

/-- The graph state after a sequence of interface calls on a fresh
graph. -/
def runOps [GraphNode T] (ops : List (GraphOp T A)) : ObjectGraph T A :=
  ops.foldl applyOp (initialGraph T A)

/-- A minimal concrete node type for instantiating the graph claims. -/
structure SNode where
  identifier : String
deriving DecidableEq

instance : GraphNode SNode :=
  ⟨SNode.identifier⟩

/-- A concrete sample graph: nodes A, B, C; root A; edges A→B, B→C, A→C
and C→A (an edge back to the root, closing a cycle). -/
def sampleGraph : ObjectGraph SNode (List Nat) :=
  { _roots := ["A"]
    _nodes := [("A", ⟨"A"⟩), ("B", ⟨"B"⟩), ("C", ⟨"C"⟩)]
    _edges := [(("A", "B"), [1]), (("B", "C"), [2]), (("A", "C"), [3]),
               (("C", "A"), [4])] }

/-- The edge relation of the graph on identifiers: there is a stored
edge from `x` to `y`. -/
def edgeRel [GraphNode T] (g : ObjectGraph T A) (x y : String) : Prop :=
  ∃ a, ((x, y), a) ∈ g._edges

/-- Reachability along stored edges. -/
def ReachG [GraphNode T] (g : ObjectGraph T A) : String → String → Prop :=
  Relation.ReflTransGen (edgeRel g)

/-- One edge step that ends outside the avoided set `S`. -/
def stepA [GraphNode T] (g : ObjectGraph T A) (S : Finset String) (u v : String) : Prop :=
  edgeRel g u v ∧ v ∉ S

/-- Reachability from `x` to `y` along a path all of whose vertices
avoid `S`: exactly the nodes a traversal with visited-set `S` can still
discover from `x`. -/
def RA [GraphNode T] (g : ObjectGraph T A) (S : Finset String) (x y : String) : Prop :=
  x ∉ S ∧ Relation.ReflTransGen (stepA g S) x y

/-- The discovery-order property of a yield sequence: every yielded
identifier is a seed or has an edge from an identifier yielded earlier. -/
def OrdOK [GraphNode T] (g : ObjectGraph T A) (seeds : List String) (ids : List String) :
    Prop :=
  ∀ pre y post, ids = pre ++ y :: post → y ∈ seeds ∨ ∃ x ∈ pre, edgeRel g x y

/-- The identifiers of a yield sequence, in order. -/
def idsOf [GraphNode T] (l : List T) : List String :=
  l.map (fun t => GraphNode.identifier t)

/-- What `iterFrom g ident visited` returns when `ident` is a node key:
the yielded identifiers are exactly the nodes reachable from `ident`
avoiding `visited`, without repetition, in discovery order, the new
visited set is the old one plus the yields, and every yielded value is
the stored node of its identifier. -/
def FromSpec [GraphNode T] (g : ObjectGraph T A) (ident : String) (visited : Finset String)
    (l : List T) (v : Finset String) : Prop :=
  (idsOf l).Nodup ∧
  (∀ y, y ∈ idsOf l ↔ RA g visited ident y) ∧
  v = visited ∪ (idsOf l).toFinset ∧
  OrdOK g [ident] (idsOf l) ∧
  (∀ t ∈ l, dictGet g._nodes (GraphNode.identifier t) = some t)

/-- The analogue of `FromSpec` for `iterList` over a list of start
identifiers sharing one visited set. -/
def ListSpec [GraphNode T] (g : ObjectGraph T A) (idents : List String)
    (visited : Finset String) (l : List T) (v : Finset String) : Prop :=
  (idsOf l).Nodup ∧
  (∀ y, y ∈ idsOf l ↔ ∃ x ∈ idents, RA g visited x y) ∧
  v = visited ∪ (idsOf l).toFinset ∧
  OrdOK g idents (idsOf l) ∧
  (∀ t ∈ l, dictGet g._nodes (GraphNode.identifier t) = some t)

theorem dictGet_cons [DecidableEq κ] {k' : κ} {v' : α} {l : List (κ × α)} {k : κ} :
    dictGet ((k', v') :: l) k = if k' = k then some v' else dictGet l k := by
  unfold dictGet
  by_cases h : k' = k
  · rw [List.find?_cons_of_pos] <;> simp [h]
  · rw [List.find?_cons_of_neg] <;> simp [h]

theorem dictGet_none_iff [DecidableEq κ] {l : List (κ × α)} {k : κ} :
    dictGet l k = Option.none ↔ ∀ p ∈ l, p.1 ≠ k := by
  induction l with
  | nil => simp [dictGet]
  | cons p rest ih =>
    cases p with
    | mk k' v' =>
      rw [dictGet_cons]
      by_cases h : k' = k <;> simp [h, ih]

theorem dictGet_append_left [DecidableEq κ] {l l2 : List (κ × α)} {k : κ} {v : α}
    (h : dictGet l k = some v) : dictGet (l ++ l2) k = some v := by
  induction l with
  | nil => simp [dictGet] at h
  | cons p rest ih =>
    cases p with
    | mk k' v' =>
      rw [dictGet_cons] at h
      rw [List.cons_append, dictGet_cons]
      by_cases hk : k' = k
      · rwa [if_pos hk] at h ⊢
      · rw [if_neg hk] at h ⊢
        exact ih h

theorem dictGet_dictSet_self [DecidableEq κ] (l : List (κ × α)) (k : κ) (v : α) :
    dictGet (dictSet l k v) k = some v := by
  induction l with
  | nil => simp [dictSet, dictGet_cons]
  | cons p rest ih =>
    cases p with
    | mk k' v' =>
      unfold dictSet
      by_cases h : k' = k
      · rw [if_pos h, dictGet_cons, if_pos h]
      · rw [if_neg h, dictGet_cons, if_neg h]
        exact ih

theorem dictGet_dictSet_ne [DecidableEq κ] {l : List (κ × α)} {k k' : κ} (v : α)
    (h : k' ≠ k) : dictGet (dictSet l k v) k' = dictGet l k' := by
  induction l with
  | nil =>
    have hne : ¬ (k = k') := fun he => h he.symm
    simp [dictSet, dictGet_cons, hne, dictGet]
  | cons p rest ih =>
    cases p with
    | mk k2 v2 =>
      unfold dictSet
      by_cases h2 : k2 = k
      · rw [if_pos h2, dictGet_cons, dictGet_cons]
        have h3 : ¬ (k2 = k') := fun he => h (he ▸ h2)
        rw [if_neg h3, if_neg h3]
      · rw [if_neg h2, dictGet_cons, dictGet_cons]
        by_cases h3 : k2 = k'
        · rw [if_pos h3, if_pos h3]
        · rw [if_neg h3, if_neg h3, ih]

theorem dictSet_fresh [DecidableEq κ] {l : List (κ × α)} {k : κ} (v : α)
    (h : dictGet l k = Option.none) : dictSet l k v = l ++ [(k, v)] := by
  induction l with
  | nil => simp [dictSet]
  | cons p rest ih =>
    cases p with
    | mk k' v' =>
      rw [dictGet_cons] at h
      by_cases hk : k' = k
      · rw [if_pos hk] at h; exact absurd h (by simp)
      · rw [if_neg hk] at h
        unfold dictSet
        rw [if_neg hk, List.cons_append, ih h]

theorem mem_dictSet [DecidableEq κ] {l : List (κ × α)} {k : κ} {v : α} {p : κ × α}
    (h : p ∈ dictSet l k v) : p ∈ l ∨ (p.1 = k ∧ p.2 = v) := by
  induction l with
  | nil => simp [dictSet] at h; right; simp [h]
  | cons q rest ih =>
    cases q with
    | mk k' v' =>
      unfold dictSet at h
      by_cases hk : k' = k
      · rw [if_pos hk] at h
        rcases List.mem_cons.mp h with h1 | h1
        · right; rw [h1, hk]; exact ⟨rfl, rfl⟩
        · left; exact List.mem_cons_of_mem _ h1
      · rw [if_neg hk] at h
        rcases List.mem_cons.mp h with h1 | h1
        · left; rw [h1]; exact List.mem_cons_self _ _
        · rcases ih h1 with h2 | h2
          · left; exact List.mem_cons_of_mem _ h2
          · right; exact h2

theorem mem_sinsert_iff {l : List String} {s x : String} :
    x ∈ sinsert l s ↔ x ∈ l ∨ x = s := by
  unfold sinsert
  by_cases h : s ∈ l
  · rw [if_pos h]
    constructor
    · exact Or.inl
    · rintro (h1 | h1)
      · exact h1
      · rwa [h1]
  · rw [if_neg h]
    simp

theorem mem_sunion_iff {b a : List String} {x : String} :
    x ∈ sunion a b ↔ x ∈ a ∨ x ∈ b := by
  induction b generalizing a with
  | nil => simp [sunion]
  | cons s rest ih =>
    show x ∈ sunion (sinsert a s) rest ↔ _
    rw [ih, mem_sinsert_iff, List.mem_cons]
    tauto

/-- C9: for an identifier or node argument absent from the graph,
`outgoing` and `incoming` return an empty sequence instead of raising,
so these queries cannot distinguish a missing node from a node with no
edges. -/
theorem C9_missing_node_empty [GraphNode T] (g : ObjectGraph T A) (ref : NodeRef T)
    (h : find_node g ref = Option.none) :
    outgoing g ref = .ok [] ∧ incoming g ref = .ok [] := by
  unfold outgoing incoming
  rw [h]
  exact ⟨rfl, rfl⟩

/-- Witness for C9 at a concrete graph and a concrete absent
identifier. -/
theorem C9_missing_node_empty_witness :
    find_node sampleGraph (NodeRef.str "Z") = Option.none ∧
      (outgoing sampleGraph (NodeRef.str "Z") = .ok [] ∧
       incoming sampleGraph (NodeRef.str "Z") = .ok []) :=
  ⟨rfl, C9_missing_node_empty sampleGraph (NodeRef.str "Z") rfl⟩

/-- C10: whenever `add_node`, `add_root`, `add_edge` or `edge_data`
raises, the graph state after the call is exactly the state before it
(all checks precede the single mutation of each method). -/
theorem C10_failure_atomic [GraphNode T] (g : ObjectGraph T A) :
    (∀ (t : T) (e : PyError), (add_node g t).1 = .error e → (add_node g t).2 = g) ∧
    (∀ (r : NodeRef T) (e : PyError), (add_root g r).1 = .error e → (add_root g r).2 = g) ∧
    (∀ (s d : T) (attr : A) (m : Option (A → A → A)) (e : PyError),
      (add_edge g s d attr m).1 = .error e → (add_edge g s d attr m).2 = g) ∧
    (∀ (s d : NodeRef T) (e : PyError),
      (edge_data g s d).1 = .error e → (edge_data g s d).2 = g) := by
  refine ⟨?_, ?_, ?_, ?_⟩
  · intro t e
    unfold add_node
    split <;> first | (intro _; rfl) | (intro h; simp at h)
  · intro r e
    unfold add_root
    split <;> first | (intro _; rfl) | (intro h; simp at h)
  · intro s d attr m e
    cases hs : find_node g (.node s) with
    | none => intro _; simp [add_edge, hs]
    | some fs =>
      cases hd : find_node g (.node d) with
      | none => intro _; simp [add_edge, hs, hd]
      | some fd =>
        cases hg : dictGet g._edges (GraphNode.identifier fs, GraphNode.identifier fd) with
        | none => intro h; simp [add_edge, hs, hd, hg] at h
        | some cur =>
          cases m with
          | none => intro _; simp [add_edge, hs, hd, hg]
          | some mf => intro h; simp [add_edge, hs, hd, hg] at h
  · intro s d e
    cases hs : find_node g s with
    | none => intro _; simp [edge_data, hs]
    | some fs =>
      cases hd : find_node g d with
      | none => intro _; simp [edge_data, hs, hd]
      | some fd =>
        cases hg : dictGet g._edges (GraphNode.identifier fs, GraphNode.identifier fd) with
        | none => intro _; simp [edge_data, hs, hd, hg]
        | some cur => intro h; simp [edge_data, hs, hd, hg] at h

/-- Witness for C10 at a concrete failing call: re-adding node `A` to
the sample graph raises and leaves the state untouched. -/
theorem C10_failure_atomic_witness :
    (add_node sampleGraph ⟨"A"⟩).1 =
        .error (.valueError "Already have node with name A") ∧
      (add_node sampleGraph ⟨"A"⟩).2 = sampleGraph :=
  ⟨rfl, (C10_failure_atomic sampleGraph).1 ⟨"A"⟩
    (.valueError "Already have node with name A") rfl⟩

/-- C3: `add_edge` raises NodeNotFound (a `KeyError`) when either
endpoint is absent; stores the attribute when the ordered pair has no
edge yet; raises DuplicateEdge (a `ValueError`) on an existing edge
without a merge function; and with a merge function replaces the stored
attribute by `merge(existing, new)` (so with set union as the merge the
stored attribute is the union of the two attribute sets). -/
theorem C3_add_edge_spec [GraphNode T] (g : ObjectGraph T A) (s d : T) (attr : A)
    (m : Option (A → A → A)) :
    (find_node g (.node s) = Option.none ∨ find_node g (.node d) = Option.none →
      ∃ msg, (add_edge g s d attr m).1 = .error (.keyError msg)) ∧
    (∀ fs fd, find_node g (.node s) = some fs → find_node g (.node d) = some fd →
      dictGet g._edges (GraphNode.identifier fs, GraphNode.identifier fd) = Option.none →
      (add_edge g s d attr m).1 = .ok () ∧
      dictGet (add_edge g s d attr m).2._edges
        (GraphNode.identifier fs, GraphNode.identifier fd) = some attr) ∧
    (∀ fs fd cur, find_node g (.node s) = some fs → find_node g (.node d) = some fd →
      dictGet g._edges (GraphNode.identifier fs, GraphNode.identifier fd) = some cur →
      m = Option.none →
      ∃ msg, (add_edge g s d attr m).1 = .error (.valueError msg)) ∧
    (∀ fs fd cur mf, find_node g (.node s) = some fs → find_node g (.node d) = some fd →
      dictGet g._edges (GraphNode.identifier fs, GraphNode.identifier fd) = some cur →
      m = some mf →
      (add_edge g s d attr m).1 = .ok () ∧
      dictGet (add_edge g s d attr m).2._edges
        (GraphNode.identifier fs, GraphNode.identifier fd) = some (mf cur attr)) := by
  refine ⟨?_, ?_, ?_, ?_⟩
  · rintro (hs | hd)
    · exact ⟨"Source \x7bsource!r\x7d not found", by simp [add_edge, hs]⟩
    · cases hs : find_node g (.node s) with
      | none => exact ⟨"Source \x7bsource!r\x7d not found", by simp [add_edge, hs]⟩
      | some fs =>
        exact ⟨"Destination \x7bdestination!r\x7d not found", by simp [add_edge, hs, hd]⟩
  · intro fs fd hs hd hg
    constructor
    · simp [add_edge, hs, hd, hg]
    · simp [add_edge, hs, hd, hg, dictGet_dictSet_self]
  · intro fs fd cur hs hd hg hm
    exact ⟨"Edge between " ++ GraphNode.identifier fs ++ " and " ++
      GraphNode.identifier fd ++ " already exists", by simp [add_edge, hs, hd, hg, hm]⟩
  · intro fs fd cur mf hs hd hg hm
    constructor
    · simp [add_edge, hs, hd, hg, hm]
    · simp [add_edge, hs, hd, hg, hm, dictGet_dictSet_self]

/-- Witness for C3 at concrete inputs: a duplicate edge A→B raises
without a merge function, and with list-append as merge the stored
attribute is the combination of the two. -/
theorem C3_add_edge_spec_witness :
    (∃ msg, (add_edge sampleGraph ⟨"A"⟩ ⟨"B"⟩ [9]
        (Option.none : Option (List Nat → List Nat → List Nat))).1 =
      .error (.valueError msg)) ∧
    ((add_edge sampleGraph ⟨"A"⟩ ⟨"B"⟩ [9] (some (fun a b => a ++ b))).1 = .ok () ∧
      dictGet (add_edge sampleGraph ⟨"A"⟩ ⟨"B"⟩ [9]
          (some (fun a b => a ++ b))).2._edges ("A", "B") = some [1, 9]) :=
  ⟨(C3_add_edge_spec sampleGraph ⟨"A"⟩ ⟨"B"⟩ [9] Option.none).2.2.1
      ⟨"A"⟩ ⟨"B"⟩ [1] rfl rfl rfl rfl,
   (C3_add_edge_spec sampleGraph ⟨"A"⟩ ⟨"B"⟩ [9] (some (fun a b => a ++ b))).2.2.2
      ⟨"A"⟩ ⟨"B"⟩ [1] (fun a b => a ++ b) rfl rfl rfl rfl⟩

theorem find_node_eq [GraphNode T] (g : ObjectGraph T A) (r : NodeRef T) :
    find_node g r = dictGet g._nodes (refIdent r) := by
  cases r <;> rfl

theorem dictGet_isSome_dictSet [DecidableEq κ] (l : List (κ × α)) (k k' : κ) (v : α)
    (h : (dictGet l k').isSome = true) : (dictGet (dictSet l k v) k').isSome = true := by
  by_cases he : k' = k
  · subst he; rw [dictGet_dictSet_self]; rfl
  · rw [dictGet_dictSet_ne v he]; exact h

theorem dictGet_isSome_append [DecidableEq κ] (l l2 : List (κ × α)) (k : κ)
    (h : (dictGet l k).isSome = true) : (dictGet (l ++ l2) k).isSome = true := by
  rcases Option.isSome_iff_exists.mp h with ⟨v, hv⟩
  rw [dictGet_append_left hv]
  rfl

theorem invariant_initial [GraphNode T] : Invariant (initialGraph T A) := by
  refine ⟨?_, ?_, ?_, ?_⟩ <;> simp [initialGraph]

theorem applyOp_preserves [GraphNode T] (g : ObjectGraph T A) (op : GraphOp T A)
    (hInv : Invariant g) :
    Invariant (applyOp g op) ∧
    (∀ k v, dictGet g._nodes k = some v → dictGet (applyOp g op)._nodes k = some v) ∧
    (∀ r ∈ g._roots, r ∈ (applyOp g op)._roots) ∧
    (∀ k, (dictGet g._edges k).isSome = true →
      (dictGet (applyOp g op)._edges k).isSome = true) := by
  obtain ⟨hc, hnd, hr, he⟩ := hInv
  cases op with
  | addNode t =>
    cases hn : dictGet g._nodes (GraphNode.identifier t) with
    | some v0 =>
      have hid : applyOp g (.addNode t) = g := by simp [applyOp, add_node, hn]
      rw [hid]
      exact ⟨⟨hc, hnd, hr, he⟩, fun k v h => h, fun r h => h, fun k h => h⟩
    | none =>
      have hst : applyOp g (.addNode t) =
          { g with _nodes := g._nodes ++ [(GraphNode.identifier t, t)] } := by
        simp [applyOp, add_node, hn, dictSet_fresh t hn]
      rw [hst]
      refine ⟨⟨?_, ?_, ?_, ?_⟩, ?_, fun r h => h, fun k h => h⟩
      · intro p hp
        rcases List.mem_append.mp hp with hp1 | hp1
        · exact hc p hp1
        · rcases List.mem_singleton.mp hp1 with rfl
          rfl
      · show (List.map Prod.fst (g._nodes ++ [(GraphNode.identifier t, t)])).Nodup
        rw [List.map_append]
        refine List.Nodup.append hnd (by simp) ?_
        intro x hx1 hx2
        simp at hx2
        rcases List.mem_map.mp hx1 with ⟨p, hp, hpx⟩
        exact (dictGet_none_iff.mp hn p hp) (by rw [hpx, hx2])
      · intro r hrr
        exact dictGet_isSome_append _ _ _ (hr r hrr)
      · intro e hee
        exact ⟨dictGet_isSome_append _ _ _ (he e hee).1,
               dictGet_isSome_append _ _ _ (he e hee).2⟩
      · intro k v h
        exact dictGet_append_left h
  | addRoot r =>
    cases hf : find_node g r with
    | none =>
      have hid : applyOp g (.addRoot r) = g := by simp [applyOp, add_root, hf]
      rw [hid]
      exact ⟨⟨hc, hnd, hr, he⟩, fun k v h => h, fun x h => h, fun k h => h⟩
    | some v =>
      have hst : applyOp g (.addRoot r) =
          { g with _roots := sinsert g._roots (GraphNode.identifier v) } := by
        simp [applyOp, add_root, hf]
      have hf2 : dictGet g._nodes (refIdent r) = some v := by rw [← find_node_eq, hf]
      have hkey : refIdent r = GraphNode.identifier v := hc _ (dictGet_mem hf2)
      rw [hst]
      refine ⟨⟨hc, hnd, ?_, he⟩, fun k v h => h, ?_, fun k h => h⟩
      · intro x hx
        show (dictGet g._nodes x).isSome = true
        rcases mem_sinsert_iff.mp
            (show x ∈ sinsert g._roots (GraphNode.identifier v) from hx) with hx1 | hx1
        · exact hr x hx1
        · rw [hx1, ← hkey, hf2]
          rfl
      · intro x hx
        exact mem_sinsert_iff.mpr (Or.inl hx)
  | addEdge s d attr m =>
    cases hs : find_node g (.node s) with
    | none =>
      have hid : applyOp g (.addEdge s d attr m) = g := by simp [applyOp, add_edge, hs]
      rw [hid]
      exact ⟨⟨hc, hnd, hr, he⟩, fun k v h => h, fun x h => h, fun k h => h⟩
    | some fs =>
      cases hd : find_node g (.node d) with
      | none =>
        have hid : applyOp g (.addEdge s d attr m) = g := by
          simp [applyOp, add_edge, hs, hd]
        rw [hid]
        exact ⟨⟨hc, hnd, hr, he⟩, fun k v h => h, fun x h => h, fun k h => h⟩
      | some fd =>
        have hs2 : dictGet g._nodes (GraphNode.identifier s) = some fs := hs
        have hd2 : dictGet g._nodes (GraphNode.identifier d) = some fd := hd
        have hsk : (dictGet g._nodes (GraphNode.identifier fs)).isSome = true := by
          rw [← hc _ (dictGet_mem hs2), hs2]; rfl
        have hdk : (dictGet g._nodes (GraphNode.identifier fd)).isSome = true := by
          rw [← hc _ (dictGet_mem hd2), hd2]; rfl
        cases hg : dictGet g._edges (GraphNode.identifier fs, GraphNode.identifier fd) with
        | none =>
          have hst : applyOp g (.addEdge s d attr m) =
              { g with _edges := g._edges ++
                  [((GraphNode.identifier fs, GraphNode.identifier fd), attr)] } := by
            simp [applyOp, add_edge, hs, hd, hg, dictSet_fresh attr hg]
          rw [hst]
          refine ⟨⟨hc, hnd, hr, ?_⟩, fun k v h => h, fun x h => h, ?_⟩
          · intro e hee
            rcases List.mem_append.mp hee with h1 | h1
            · exact he e h1
            · rcases List.mem_singleton.mp h1 with rfl
              exact ⟨hsk, hdk⟩
          · intro k h
            exact dictGet_isSome_append _ _ _ h
        | some cur =>
          cases m with
          | none =>
            have hid : applyOp g (.addEdge s d attr Option.none) = g := by
              simp [applyOp, add_edge, hs, hd, hg]
            rw [hid]
            exact ⟨⟨hc, hnd, hr, he⟩, fun k v h => h, fun x h => h, fun k h => h⟩
          | some mf =>
            have hst : applyOp g (.addEdge s d attr (some mf)) =
                { g with _edges :=
                    (dictSet g._edges (GraphNode.identifier fs, GraphNode.identifier fd)
                      (mf cur attr)) } := by
              simp [applyOp, add_edge, hs, hd, hg]
            rw [hst]
            refine ⟨⟨hc, hnd, hr, ?_⟩, fun k v h => h, fun x h => h, ?_⟩
            · intro e hee
              rcases mem_dictSet hee with h1 | ⟨h1, h2⟩
              · exact he e h1
              · rw [h1]
                exact ⟨hsk, hdk⟩
            · intro k h
              exact dictGet_isSome_dictSet _ _ _ _ h
  | edgeData s d =>
    have hid : applyOp g (.edgeData s d) = g := by
      unfold applyOp
      cases hs : find_node g s with
      | none => simp [edge_data, hs]
      | some fs =>
        cases hd : find_node g d with
        | none => simp [edge_data, hs, hd]
        | some fd =>
          cases hg : dictGet g._edges (GraphNode.identifier fs, GraphNode.identifier fd) with
          | none => simp [edge_data, hs, hd, hg]
          | some a => simp [edge_data, hs, hd, hg]
    rw [hid]
    exact ⟨⟨hc, hnd, hr, he⟩, fun k v h => h, fun x h => h, fun k h => h⟩

/-- C7: every interface call preserves the graph invariants (every root
identifier and every edge endpoint identifier is a node key) and growth
is monotonic — no call removes a node, a root, or an edge — and hence
every sequence of calls starting from the fresh graph maintains the
invariants. -/
theorem C7_invariants_and_monotonic_growth [GraphNode T] (g : ObjectGraph T A)
    (op : GraphOp T A) (hInv : Invariant g) :
    (Invariant (applyOp g op) ∧
      (∀ k v, dictGet g._nodes k = some v → dictGet (applyOp g op)._nodes k = some v) ∧
      (∀ r ∈ g._roots, r ∈ (applyOp g op)._roots) ∧
      (∀ k, (dictGet g._edges k).isSome = true →
        (dictGet (applyOp g op)._edges k).isSome = true)) ∧
    (∀ ops : List (GraphOp T A), Invariant (runOps ops)) := by
  constructor
  · exact applyOp_preserves g op hInv
  · intro ops
    have hgen : ∀ (l : List (GraphOp T A)) (g0 : ObjectGraph T A), Invariant g0 →
        Invariant (l.foldl applyOp g0) := by
      intro l
      induction l with
      | nil => intro g0 h0; exact h0
      | cons o rest ih =>
        intro g0 h0
        exact ih (applyOp g0 o) (applyOp_preserves g0 o h0).1
    exact hgen ops (initialGraph T A) invariant_initial

/-- Witness for C7 at a concrete graph and operation. -/
theorem C7_invariants_and_monotonic_growth_witness :
    Invariant sampleGraph ∧
      (Invariant (applyOp sampleGraph (.addNode ⟨"D"⟩)) ∧
        (∀ k v, dictGet sampleGraph._nodes k = some v →
          dictGet (applyOp sampleGraph (.addNode ⟨"D"⟩))._nodes k = some v) ∧
        (∀ r ∈ sampleGraph._roots, r ∈ (applyOp sampleGraph (.addNode ⟨"D"⟩))._roots) ∧
        (∀ k, (dictGet sampleGraph._edges k).isSome = true →
          (dictGet (applyOp sampleGraph (.addNode ⟨"D"⟩))._edges k).isSome = true)) ∧
      (∀ ops : List (GraphOp SNode (List Nat)), Invariant (runOps ops)) :=
  ⟨by unfold Invariant; decide,
   C7_invariants_and_monotonic_growth sampleGraph (.addNode ⟨"D"⟩)
     (by unfold Invariant; decide)⟩

theorem singleStep_imports {code : Code} {instructions : List Instr} {f c : Bool}
    {offset : Nat} {inst : Instr} {st st' : SingleState}
    (h : singleStep code instructions f c offset inst st = .ok st') :
    st'.imports = st.imports ∨
      ∃ rec, st'.imports = st.imports ++ [rec] ∧ "*" ∉ rec.import_names ∧
        rec.is_in_function = f := by
  unfold singleStep at h
  repeat' split at h
  all_goals try exact Except.noConfusion h
  all_goals (injection h with h; subst h)
  all_goals try (left; rfl)
  all_goals right
  · exact ⟨_, rfl, by simp, rfl⟩
  · exact ⟨_, rfl, by simp, rfl⟩
  · exact ⟨_, rfl, by simp [List.mem_dedup, List.mem_filter], rfl⟩
  · exact ⟨_, rfl, by simp [List.mem_dedup, List.mem_filter], rfl⟩

theorem singleStep_gw_function {code : Code} {instructions : List Instr} {c : Bool}
    {offset : Nat} {inst : Instr} {st st' : SingleState}
    (h : singleStep code instructions true c offset inst st = .ok st') :
    st'.globals_written = st.globals_written ∨
      (inst.opname = "STORE_NAME" ∧ ∃ a n, inst.arg = some a ∧
        code.co_names.get? a = some n ∧
        st'.globals_written = sinsert st.globals_written n) := by
  unfold singleStep at h
  repeat' split at h
  all_goals try exact Except.noConfusion h
  all_goals (injection h with h; subst h)
  all_goals try (left; rfl)
  all_goals try (solve | (exfalso; simp_all))
  all_goals simp_all

theorem singleStep_gr_mono {code : Code} {instructions : List Instr} {f c : Bool}
    {offset : Nat} {inst : Instr} {st st' : SingleState}
    (h : singleStep code instructions f c offset inst st = .ok st') :
    ∀ x ∈ st.globals_read, x ∈ st'.globals_read := by
  unfold singleStep at h
  repeat' split at h
  all_goals try exact Except.noConfusion h
  all_goals (injection h with h; subst h)
  all_goals intro x hx
  all_goals try exact hx
  all_goals exact mem_sinsert_iff.mpr (Or.inl hx)

theorem singleStep_load_global {code : Code} {instructions : List Instr} {f c : Bool}
    {offset : Nat} {a : Nat} {n : String} {st : SingleState}
    (hn : code.co_names.get? a = some n) :
    singleStep code instructions f c offset ⟨"LOAD_GLOBAL", some a⟩ st =
      .ok { st with globals_read := sinsert st.globals_read n } := by
  have hn2 : code.co_names[a]? = some n := by
    rw [← List.get?_eq_getElem?]
    exact hn
  unfold singleStep
  simp [hn2]

theorem singleLoop_starfree {code : Code} {instructions : List Instr} {f c : Bool} :
    ∀ (rest : List Instr) (offset : Nat) (st st' : SingleState),
      singleLoop code instructions f c offset rest st = .ok st' →
      (∀ r ∈ st.imports, "*" ∉ r.import_names) →
      (∀ r ∈ st'.imports, "*" ∉ r.import_names) := by
  intro rest
  induction rest with
  | nil =>
    intro offset st st' h hst
    unfold singleLoop at h
    injection h with h
    subst h
    exact hst
  | cons inst rest ih =>
    intro offset st st' h hst
    unfold singleLoop at h
    cases hs : singleStep code instructions f c offset inst st with
    | error e => rw [hs] at h; exact Except.noConfusion h
    | ok st1 =>
      rw [hs] at h
      refine ih (offset + 1) st1 st' h ?_
      intro r hr
      rcases singleStep_imports hs with h1 | ⟨rec, h1, h2, _⟩
      · exact hst r (h1 ▸ hr)
      · rw [h1] at hr
        rcases List.mem_append.mp hr with h3 | h3
        · exact hst r h3
        · rcases List.mem_singleton.mp h3 with rfl
          exact h2

theorem singleLoop_gw_function {code : Code} {instructions : List Instr} {c : Bool} :
    ∀ (rest : List Instr) (offset : Nat) (st st' : SingleState),
      singleLoop code instructions true c offset rest st = .ok st' →
      (∀ i ∈ rest, i ∈ code.instructions) →
      (∀ n ∈ st.globals_written, writeTarget code n) →
      (∀ n ∈ st'.globals_written, writeTarget code n) := by
  intro rest
  induction rest with
  | nil =>
    intro offset st st' h _ hst
    unfold singleLoop at h
    injection h with h
    subst h
    exact hst
  | cons inst rest ih =>
    intro offset st st' h hsub hst
    unfold singleLoop at h
    cases hs : singleStep code instructions true c offset inst st with
    | error e => rw [hs] at h; exact Except.noConfusion h
    | ok st1 =>
      rw [hs] at h
      refine ih (offset + 1) st1 st' h (fun i hi => hsub i (List.mem_cons_of_mem _ hi)) ?_
      intro n hn
      rcases singleStep_gw_function hs with h1 | ⟨hop, a, m, ha, hm, h1⟩
      · exact hst n (h1 ▸ hn)
      · rw [h1] at hn
        rcases mem_sinsert_iff.mp hn with h3 | h3
        · exact hst n h3
        · exact ⟨inst, hsub inst (List.mem_cons_self _ _), hop, a, ha, h3 ▸ hm⟩

theorem singleLoop_gr_mono {code : Code} {instructions : List Instr} {f c : Bool} :
    ∀ (rest : List Instr) (offset : Nat) (st st' : SingleState),
      singleLoop code instructions f c offset rest st = .ok st' →
      ∀ x ∈ st.globals_read, x ∈ st'.globals_read := by
  intro rest
  induction rest with
  | nil =>
    intro offset st st' h x hx
    unfold singleLoop at h
    injection h with h
    subst h
    exact hx
  | cons inst rest ih =>
    intro offset st st' h x hx
    unfold singleLoop at h
    cases hs : singleStep code instructions f c offset inst st with
    | error e => rw [hs] at h; exact Except.noConfusion h
    | ok st1 =>
      rw [hs] at h
      exact ih (offset + 1) st1 st' h x (singleStep_gr_mono hs x hx)

theorem singleLoop_gr_reaches {code : Code} {instructions : List Instr} {f c : Bool} :
    ∀ (rest : List Instr) (offset : Nat) (st st' : SingleState),
      singleLoop code instructions f c offset rest st = .ok st' →
      ∀ (a : Nat) (n : String), (⟨"LOAD_GLOBAL", some a⟩ : Instr) ∈ rest →
        code.co_names.get? a = some n →
        n ∈ st'.globals_read := by
  intro rest
  induction rest with
  | nil =>
    intro offset st st' h a n hmem
    exact absurd hmem (List.not_mem_nil _)
  | cons inst rest ih =>
    intro offset st st' h a n hmem hn
    unfold singleLoop at h
    cases hs : singleStep code instructions f c offset inst st with
    | error e => rw [hs] at h; exact Except.noConfusion h
    | ok st1 =>
      rw [hs] at h
      rcases List.mem_cons.mp hmem with h1 | h1
      · subst h1
        rw [singleStep_load_global hn] at hs
        injection hs with hs
        subst hs
        exact singleLoop_gr_mono rest (offset + 1) _ st' h n
          (mem_sinsert_iff.mpr (Or.inr rfl))
      · exact ih (offset + 1) st1 st' h a n h1 hn

theorem singleLoop_error_of_bad {code : Code} {instructions : List Instr} {f c : Bool} :
    ∀ (rest : List Instr) (offset : Nat) (st : SingleState) (k : Nat) (inst : Instr),
      rest.get? k = some inst →
      (∀ st2, ∃ e, singleStep code instructions f c (offset + k) inst st2 = .error e) →
      ∃ e, singleLoop code instructions f c offset rest st = .error e := by
  intro rest
  induction rest with
  | nil =>
    intro offset st k inst hget
    simp at hget
  | cons i rest ih =>
    intro offset st k inst hget hbad
    cases k with
    | zero =>
      simp at hget
      subst hget
      rcases hbad st with ⟨e, he⟩
      rw [Nat.add_zero] at he
      refine ⟨e, ?_⟩
      unfold singleLoop
      rw [he]
    | succ k =>
      simp [List.get?_cons_succ] at hget
      cases hs : singleStep code instructions f c offset i st with
      | error e =>
        refine ⟨e, ?_⟩
        unfold singleLoop
        rw [hs]
      | ok st1 =>
        have hbad2 : ∀ st2, ∃ e,
            singleStep code instructions f c (offset + 1 + k) inst st2 = .error e := by
          intro st2
          rcases hbad st2 with ⟨e, he⟩
          exact ⟨e, by rw [show offset + 1 + k = offset + (k + 1) by omega]; exact he⟩
        rcases ih (offset + 1) st1 k inst (by simpa using hget) hbad2 with ⟨e, he⟩
        refine ⟨e, ?_⟩
        unfold singleLoop
        rw [hs]
        exact he

theorem singleStep_import_bad {code : Code} {instructions : List Instr} {f c : Bool}
    {offset : Nat} {inst i1 i2 : Instr}
    (hop : inst.opname = "IMPORT_NAME") (hoff : 2 ≤ offset)
    (h3 : instructions.get? (offset - 1) = some i1)
    (h4 : instructions.get? (offset - 2) = some i2)
    (h5 : ¬(i1.opname = "LOAD_CONST" ∧ i2.opname = "LOAD_CONST")) :
    ∀ st, ∃ e, singleStep code instructions f c offset inst st = .error e := by
  intro st
  have e1 : pyGet instructions ((offset : Int) - 1) = some i1 := by
    unfold pyGet
    rw [if_pos (by omega : (0 : Int) ≤ (offset : Int) - 1)]
    rw [show ((offset : Int) - 1).toNat = offset - 1 by omega]
    exact h3
  have e2 : pyGet instructions ((offset : Int) - 2) = some i2 := by
    unfold pyGet
    rw [if_pos (by omega : (0 : Int) ≤ (offset : Int) - 2)]
    rw [show ((offset : Int) - 2).toNat = offset - 2 by omega]
    exact h4
  unfold singleStep
  rw [if_pos hop]
  by_cases hc1 : i1.opname = "LOAD_CONST"
  · have hc2 : ¬(i2.opname = "LOAD_CONST") := fun hx => h5 ⟨hc1, hx⟩
    simp only [e1, e2, if_pos hc1, if_neg hc2]
    exact ⟨_, rfl⟩
  · simp only [e1, if_neg hc1]
    exact ⟨_, rfl⟩

theorem extract_single_starfree {code : Code} {f c : Bool} {st : SingleState}
    (h : extract_single code f c = .ok st) :
    ∀ r ∈ st.imports, "*" ∉ r.import_names := by
  exact singleLoop_starfree code.instructions 0 initialSingleState st h (by simp [initialSingleState])

theorem extractLoop_starfree :
    ∀ (fuel : Nat) (queue : List (Code × List Code)) (acc : ExtractState)
      (out : List ImportInfo × List String × List String),
      extractLoop fuel queue acc = .ok out →
      (∀ r ∈ acc.all_imports, "*" ∉ r.import_names) →
      ∀ r ∈ out.1, "*" ∉ r.import_names := by
  intro fuel
  induction fuel with
  | zero =>
    intro queue acc out h hacc
    cases queue with
    | nil =>
      unfold extractLoop at h
      injection h with h
      subst h
      exact hacc
    | cons q rest =>
      unfold extractLoop at h
      exact Except.noConfusion h
  | succ fuel ih =>
    intro queue acc out h hacc
    cases queue with
    | nil =>
      unfold extractLoop at h
      injection h with h
      subst h
      exact hacc
    | cons q rest =>
      cases q with
      | mk current parents =>
        unfold extractLoop at h
        cases hes : extract_single current
            (is_code_for_function current parents acc.all_func_codes)
            (constMem acc.all_class_codes (.code current)) with
        | error e => rw [hes] at h; exact Except.noConfusion h
        | ok st =>
          rw [hes] at h
          refine ih _ _ out h ?_
          intro r hr
          rcases List.mem_append.mp hr with h1 | h1
          · exact hacc r h1
          · exact extract_single_starfree hes r h1

/-- C5: a module-scope `import a.b.c` yields an import record with
module `"a.b.c"`, level 0, no explicit names, no star import and not
conditional; a function-scope `from . import x` yields level 1, names
`{"x"}`, conditional true, and `"x"` is not added to the returned
`globals_written` (only the module's own `STORE_NAME f` is). -/
theorem C5_per_import_records :
    (extract_bytecode_info modImportABC =
      .ok ([⟨"a.b.c", .int 0, [], false, false⟩], ["a"], []) ∧
     ImportInfo.is_optional ⟨"a.b.c", .int 0, [], false, false⟩ = false) ∧
    (extract_bytecode_info modDefF =
      .ok ([⟨"", .int 1, ["x"], false, true⟩], ["f"], []) ∧
     ImportInfo.is_optional ⟨"", .int 1, ["x"], false, true⟩ = true ∧
     "x" ∉ (["f"] : List String)) :=
  ⟨⟨rfl, rfl⟩, rfl, rfl, by decide⟩

/-- C2: evaluating the analyzer at a module whose only instruction is
`STORE_GLOBAL g1` at module scope: the stored name is absent from the
returned `globals_written`, because the source's dispatch tuple reads
`("STORE_NAME", "STORE_NAME")` and never matches `STORE_GLOBAL`. -/
theorem C2_store_global_ignored :
    extract_bytecode_info modStoreGlobal = .ok ([], [], []) := rfl

/-- C6: no import record produced by the analyzer ever carries the star
marker in its names set — a star import is reported solely through
`star_import` — and a module-scope `from pkg import *` concretely yields
`star_import = true` with empty names. -/
theorem C6_star_marker_never_in_names :
    (∀ (code : Code) (imps : List ImportInfo) (gw gr : List String),
      extract_bytecode_info code = .ok (imps, gw, gr) →
      ∀ r ∈ imps, "*" ∉ r.import_names) ∧
    extract_bytecode_info modStarImport =
      .ok ([⟨"pkg", .int 0, [], true, false⟩], [], []) := by
  constructor
  · intro code imps gw gr h r hr
    exact extractLoop_starfree code.countCodes [(code, [])] ⟨[], [], [], [], []⟩
      (imps, gw, gr) h (by simp) r hr
  · rfl

/-- Witness for C6's universal part at the concrete star-import
module. -/
theorem C6_star_marker_never_in_names_witness :
    "*" ∉ (ImportInfo.mk "pkg" (.int 0) [] true false).import_names :=
  C6_star_marker_never_in_names.1 modStarImport
    [⟨"pkg", .int 0, [], true, false⟩] [] [] rfl
    ⟨"pkg", .int 0, [], true, false⟩ (by simp)

/-- C8 counterexample: a unit whose `IMPORT_NAME` is the very first
instruction — so it is not immediately preceded by two constant loads —
is analyzed without any failure, because Python's negative indexing
wraps around to the two trailing `LOAD_CONST`s. -/
theorem C8_counterexample :
    modWrapImport.instructions.get? 0 = some ⟨"IMPORT_NAME", some 0⟩ ∧
    extract_bytecode_info modWrapImport =
      .ok ([⟨"m", .int 0, [], false, false⟩], [], []) :=
  ⟨rfl, rfl⟩

/-- C8 (amended): for an import-name instruction at offset at least 2 —
where the operand positions cannot wrap around — the analyzer fails with
an error whenever the two preceding instructions are not both constant
loads, rather than guessing or producing a partial record. -/
theorem C8_malformed_import_fails (code : Code) (f c : Bool) (offset : Nat)
    (inst i1 i2 : Instr)
    (h0 : code.instructions.get? offset = some inst)
    (h1 : inst.opname = "IMPORT_NAME")
    (h2 : 2 ≤ offset)
    (h3 : code.instructions.get? (offset - 1) = some i1)
    (h4 : code.instructions.get? (offset - 2) = some i2)
    (h5 : ¬(i1.opname = "LOAD_CONST" ∧ i2.opname = "LOAD_CONST")) :
    ∃ e, extract_single code f c = .error e := by
  unfold extract_single
  refine singleLoop_error_of_bad code.instructions 0 initialSingleState offset inst h0 ?_
  intro st2
  have hbad :=
    @singleStep_import_bad code code.instructions f c offset inst i1 i2 h1 h2 h3 h4 h5 st2
  simpa using hbad

/-- Witness for the amended C8 at a concrete malformed unit: an
`IMPORT_NAME` at offset 2 preceded by two `NOP`s. -/
theorem C8_malformed_import_fails_witness :
    ∃ e, extract_single modBadImport false false = .error e :=
  C8_malformed_import_fails modBadImport false false 2
    ⟨"IMPORT_NAME", some 0⟩ ⟨"NOP", Option.none⟩ ⟨"NOP", Option.none⟩
    rfl rfl (by decide) rfl rfl (by decide)

/-- C1 counterexample: in `modDefReadWrite` the name `os` is read and
the name `y` is stored only inside the function body `funReadWrite`,
yet both appear in the returned global sets — so reads and store-name
writes inside function bodies are not excluded. -/
theorem C1_counterexample :
    extract_bytecode_info modDefReadWrite = .ok ([], ["f", "y"], ["os"]) ∧
    extract_single funReadWrite true false = .ok ⟨[], ["y"], ["os"], [], []⟩ :=
  ⟨rfl, rfl⟩

/-- C1 (amended): for a unit analyzed in FUNCTION scope, every name in
its `globals_written` comes from a `STORE_NAME` instruction — so
explicit from-import names are excluded from `globals_written` there —
while every `LOAD_GLOBAL` read of the unit is included in its
`globals_read` (function-body reads are not excluded). -/
theorem C1_function_scope_sets (code : Code) (cl : Bool) (st : SingleState)
    (h : extract_single code true cl = .ok st) :
    (∀ n ∈ st.globals_written, writeTarget code n) ∧
    (∀ (a : Nat) (n : String), (⟨"LOAD_GLOBAL", some a⟩ : Instr) ∈ code.instructions →
      code.co_names.get? a = some n → n ∈ st.globals_read) := by
  constructor
  · exact singleLoop_gw_function code.instructions 0 initialSingleState st h
      (fun i hi => hi) (by simp [initialSingleState])
  · intro a n hmem hn
    exact singleLoop_gr_reaches code.instructions 0 initialSingleState st h a n hmem hn

/-- Witness for the amended C1 at the concrete function body. -/
theorem C1_function_scope_sets_witness :
    writeTarget funReadWrite "y" ∧ "os" ∈ (["os"] : List String) :=
  ⟨(C1_function_scope_sets funReadWrite false ⟨[], ["y"], ["os"], [], []⟩ rfl).1
      "y" (by decide),
   (C1_function_scope_sets funReadWrite false ⟨[], ["y"], ["os"], [], []⟩ rfl).2
      0 "os" (by decide) rfl⟩

theorem RA_not_mem [GraphNode T] {g : ObjectGraph T A} {S : Finset String} {x y : String}
    (h : RA g S x y) : y ∉ S := by
  rcases h with ⟨hx, hp⟩
  rcases Relation.ReflTransGen.cases_tail hp with h1 | ⟨m, _, hstep⟩
  · rwa [h1]
  · exact hstep.2

theorem RA_mono [GraphNode T] {g : ObjectGraph T A} {S S' : Finset String} {x y : String}
    (hsub : S ⊆ S') (h : RA g S' x y) : RA g S x y := by
  refine ⟨fun hx => h.1 (hsub hx), h.2.mono ?_⟩
  rintro u v ⟨he, hv⟩
  exact ⟨he, fun hvs => hv (hsub hvs)⟩

theorem RA_head [GraphNode T] {g : ObjectGraph T A} {S : Finset String} {a y : String}
    (h : Relation.ReflTransGen (stepA g S) a y) :
    y = a ∨ ∃ n, edgeRel g a n ∧ n ∉ insert a S ∧
      Relation.ReflTransGen (stepA g (insert a S)) n y := by
  induction h with
  | refl => exact Or.inl rfl
  | tail hab hstep ih =>
    rcases hstep with ⟨hedge, hyS⟩
    rename_i m y
    by_cases hya : y = a
    · exact Or.inl hya
    · have hyins : y ∉ insert a S := by simp [hya, hyS]
      rcases ih with rfl | ⟨n, hn1, hn2, hn3⟩
      · exact Or.inr ⟨y, hedge, hyins, Relation.ReflTransGen.refl⟩
      · exact Or.inr ⟨n, hn1, hn2, hn3.tail ⟨hedge, hyins⟩⟩

theorem RA_head_conv [GraphNode T] {g : ObjectGraph T A} {S : Finset String}
    {a n y : String} (he : edgeRel g a n) (ha : a ∉ S)
    (h : RA g (insert a S) n y) : RA g S a y := by
  rcases h with ⟨hnS, hp⟩
  refine ⟨ha, Relation.ReflTransGen.head ⟨he, fun hn => hnS (Finset.mem_insert_of_mem hn)⟩
    (hp.mono ?_)⟩
  rintro u v ⟨he2, hv⟩
  exact ⟨he2, fun hvs => hv (Finset.mem_insert_of_mem hvs)⟩

theorem RA_telescope [GraphNode T] {g : ObjectGraph T A} {S V : Finset String}
    {a b y : String} (hV : ∀ z, z ∈ V ↔ z ∈ S ∨ RA g S a z) (hb : b ∉ S)
    (h : Relation.ReflTransGen (stepA g S) b y) :
    RA g S a y ∨ RA g V b y := by
  induction h with
  | refl =>
    by_cases hR : RA g S a b
    · exact Or.inl hR
    · exact Or.inr ⟨fun hbV => (((hV b).mp hbV).elim hb hR), Relation.ReflTransGen.refl⟩
  | tail h1 hstep ih =>
    rcases hstep with ⟨he, hyS⟩
    rename_i m y
    rcases ih with hL | ⟨hbV, hp⟩
    · exact Or.inl ⟨hL.1, hL.2.tail ⟨he, hyS⟩⟩
    · by_cases hyR : RA g S a y
      · exact Or.inl hyR
      · refine Or.inr ⟨hbV, hp.tail ⟨he, fun hyV => ?_⟩⟩
        exact (((hV y).mp hyV).elim hyS hyR)

theorem RA_empty_iff [GraphNode T] {g : ObjectGraph T A} {x y : String} :
    RA g ∅ x y ↔ ReachG g x y := by
  constructor
  · rintro ⟨_, hp⟩
    exact hp.mono (fun u v hs => hs.1)
  · intro h
    exact ⟨Finset.not_mem_empty x, h.mono (fun u v e => ⟨e, Finset.not_mem_empty v⟩)⟩

theorem invariant_ident_eq [GraphNode T] {nodes : List (String × T)}
    (hc : ∀ p ∈ nodes, p.1 = GraphNode.identifier p.2) {k : String} {v : T}
    (h : dictGet nodes k = some v) : GraphNode.identifier v = k :=
  (hc _ (dictGet_mem h)).symm

theorem outgoingAux_spec [GraphNode T] {nodes : List (String × T)} {srcId : String}
    (hcons : ∀ p ∈ nodes, p.1 = GraphNode.identifier p.2) :
    ∀ (edges : List ((String × String) × A)),
      (∀ e ∈ edges, (dictGet nodes e.1.2).isSome = true) →
      ∃ pairs, outgoingAux nodes srcId edges = .ok pairs ∧
        (∀ y, (∃ p ∈ pairs, GraphNode.identifier p.2 = y) ↔ ∃ a, ((srcId, y), a) ∈ edges) ∧
        (∀ p ∈ pairs, dictGet nodes (GraphNode.identifier p.2) = some p.2) := by
  intro edges
  induction edges with
  | nil =>
    intro _
    exact ⟨[], rfl, by simp, by simp⟩
  | cons e rest ih =>
    intro hend
    rcases e with ⟨⟨f, t⟩, a⟩
    rcases ih (fun e he => hend e (List.mem_cons_of_mem _ he)) with ⟨pairs, hok, hchar, hstore⟩
    by_cases hf : f = srcId
    · have hsome : (dictGet nodes t).isSome = true := (hend _ (List.mem_cons_self _ _))
      rcases Option.isSome_iff_exists.mp hsome with ⟨nd, hnd⟩
      have hidnd : GraphNode.identifier nd = t := invariant_ident_eq hcons hnd
      refine ⟨(a, nd) :: pairs, ?_, ?_, ?_⟩
      · unfold outgoingAux
        rw [if_pos hf, hnd, hok]
      · intro y
        constructor
        · rintro ⟨p, hp, hpy⟩
          rcases List.mem_cons.mp hp with rfl | hp2
          · exact ⟨a, by simp [← hpy, hidnd, hf]⟩
          · rcases (hchar y).mp ⟨p, hp2, hpy⟩ with ⟨a', ha'⟩
            exact ⟨a', List.mem_cons_of_mem _ ha'⟩
        · rintro ⟨a', ha'⟩
          rcases List.mem_cons.mp ha' with heq | hmem
          · refine ⟨(a, nd), List.mem_cons_self _ _, ?_⟩
            have : t = y := by
              have := congrArg (fun q => q.1.2) heq
              simpa using this.symm
            rw [hidnd, this]
          · rcases (hchar y).mpr ⟨a', hmem⟩ with ⟨p, hp, hpy⟩
            exact ⟨p, List.mem_cons_of_mem _ hp, hpy⟩
      · intro p hp
        rcases List.mem_cons.mp hp with rfl | hp2
        · rw [show GraphNode.identifier (a, nd).2 = t from hidnd]
          exact hnd
        · exact hstore p hp2
    · refine ⟨pairs, ?_, ?_, hstore⟩
      · unfold outgoingAux
        rw [if_neg hf]
        exact hok
      · intro y
        rw [hchar y]
        constructor
        · rintro ⟨a', ha'⟩
          exact ⟨a', List.mem_cons_of_mem _ ha'⟩
        · rintro ⟨a', ha'⟩
          rcases List.mem_cons.mp ha' with heq | hmem
          · exfalso
            have : srcId = f := by
              have := congrArg (fun q => q.1.1) heq
              simpa using this
            exact hf this.symm
          · exact ⟨a', hmem⟩

theorem outgoing_spec_inv [GraphNode T] {g : ObjectGraph T A} (hInv : Invariant g)
    {ident : String} {start : T} (h : dictGet g._nodes ident = some start) :
    ∃ pairs, outgoing g (.node start) = .ok pairs ∧
      (∀ y, (∃ p ∈ pairs, GraphNode.identifier p.2 = y) ↔ edgeRel g ident y) ∧
      (∀ p ∈ pairs, dictGet g._nodes (GraphNode.identifier p.2) = some p.2) := by
  obtain ⟨hc, _, _, he⟩ := hInv
  have hid : GraphNode.identifier start = ident := invariant_ident_eq hc h
  have hfind : find_node g (.node start) = some start := by
    rw [find_node_eq]
    show dictGet g._nodes (GraphNode.identifier start) = some start
    rw [hid]
    exact h
  rcases @outgoingAux_spec T A _ g._nodes ident hc g._edges (fun e hee => (he e hee).2) with
    ⟨pairs, hok, hchar, hstore⟩
  refine ⟨pairs, ?_, ?_, hstore⟩
  · unfold outgoing
    rw [hfind]
    show outgoingAux g._nodes (GraphNode.identifier start) g._edges = Except.ok pairs
    rw [hid]
    exact hok
  · intro y
    rw [hchar y]
    rfl

theorem iter_spec [GraphNode T] (g : ObjectGraph T A) (hInv : Invariant g) :
    ∀ n : Nat,
      (∀ (visited : Finset String) (ident : String) (start : T),
        (nodeIdents g \ visited).card ≤ n →
        dictGet g._nodes ident = some start →
        ∃ (l : List T) (v : Finset String) (hs : visited ⊆ v),
          iterFrom g ident visited = .ok (l, ⟨v, hs⟩) ∧ FromSpec g ident visited l v) ∧
      (∀ (idents : List String) (visited : Finset String),
        (nodeIdents g \ visited).card ≤ n →
        (∀ i ∈ idents, (dictGet g._nodes i).isSome = true) →
        ∃ (l : List T) (v : Finset String) (hs : visited ⊆ v),
          iterList g idents visited = .ok (l, ⟨v, hs⟩) ∧ ListSpec g idents visited l v) := by
  intro n
  induction n using Nat.strong_induction_on with
  | _ n IH =>
    have hA : ∀ (visited : Finset String) (ident : String) (start : T),
        (nodeIdents g \ visited).card ≤ n →
        dictGet g._nodes ident = some start →
        ∃ (l : List T) (v : Finset String) (hs : visited ⊆ v),
          iterFrom g ident visited = .ok (l, ⟨v, hs⟩) ∧ FromSpec g ident visited l v := by
      intro visited ident start hcard hstart
      have hid : GraphNode.identifier start = ident := invariant_ident_eq hInv.1 hstart
      subst hid
      by_cases hvis : GraphNode.identifier start ∈ visited
      · refine ⟨[], visited, Finset.Subset.refl visited, ?_, ?_⟩
        · rw [iterFrom.eq_def]
          split
          · rename_i heq
            rw [hstart] at heq
            exact Option.noConfusion heq
          · rename_i start2 heq
            rw [hstart] at heq
            injection heq with heq
            subst heq
            rw [dif_pos hvis]
        · refine ⟨by simp [idsOf], ?_, by simp [idsOf], ?_, by simp⟩
          · intro y
            simp only [idsOf, List.map_nil, List.not_mem_nil, false_iff]
            exact fun hRA => hRA.1 hvis
          · intro pre y post hsplit
            exact absurd hsplit (by simp [idsOf])
      · rcases outgoing_spec_inv hInv hstart with ⟨pairs, hout, hchar, hstore⟩
        have hnbrs_keys : ∀ j ∈ pairs.map (fun p => GraphNode.identifier p.2),
            (dictGet g._nodes j).isSome = true := by
          intro j hj
          rcases List.mem_map.mp hj with ⟨p, hp, hpj⟩
          rw [← hpj, hstore p hp]
          rfl
        have hident_mem : GraphNode.identifier start ∈ nodeIdents g :=
          identifier_mem_nodeIdents hstart
        have hcard2 : (nodeIdents g \ insert (GraphNode.identifier start) visited).card <
            (nodeIdents g \ visited).card := by
          apply Finset.card_lt_card
          constructor
          · exact Finset.sdiff_subset_sdiff (Finset.Subset.refl _) (Finset.subset_insert _ _)
          · intro hsub
            have hx : GraphNode.identifier start ∈ nodeIdents g \ visited :=
              Finset.mem_sdiff.mpr ⟨hident_mem, hvis⟩
            have hx2 := hsub hx
            rw [Finset.mem_sdiff] at hx2
            exact hx2.2 (Finset.mem_insert_self _ _)
        have hm : (nodeIdents g \ insert (GraphNode.identifier start) visited).card < n :=
          lt_of_lt_of_le hcard2 hcard
        rcases (IH _ hm).2 (pairs.map (fun p => GraphNode.identifier p.2))
            (insert (GraphNode.identifier start) visited) (le_refl _) hnbrs_keys with
          ⟨l2, v2, hs2, heq2, hspec2⟩
        obtain ⟨nd2, mem2, hv2, ord2, st2⟩ := hspec2
        refine ⟨start :: l2, v2,
          (Finset.subset_insert (GraphNode.identifier start) visited).trans hs2, ?_, ?_⟩
        · rw [iterFrom.eq_def]
          split
          · rename_i heq
            rw [hstart] at heq
            exact Option.noConfusion heq
          · rename_i start2 heq
            rw [hstart] at heq
            injection heq with heq
            subst heq
            rw [dif_neg hvis]
            simp only [hout, heq2]
        · refine ⟨?_, ?_, ?_, ?_, ?_⟩
          · show (idsOf (start :: l2)).Nodup
            have hinl2 : GraphNode.identifier start ∉ idsOf l2 := by
              intro hy
              rcases (mem2 _).mp hy with ⟨x, hx, hRA⟩
              exact RA_not_mem hRA (Finset.mem_insert_self _ _)
            exact List.nodup_cons.mpr ⟨hinl2, nd2⟩
          · intro y
            show y ∈ GraphNode.identifier start :: idsOf l2 ↔ _
            rw [List.mem_cons]
            constructor
            · rintro (rfl | hy)
              · exact ⟨hvis, Relation.ReflTransGen.refl⟩
              · rcases (mem2 y).mp hy with ⟨x, hx, hRA⟩
                rcases List.mem_map.mp hx with ⟨p, hp, hpx⟩
                have hedge : edgeRel g (GraphNode.identifier start) x :=
                  (hchar x).mp ⟨p, hp, hpx⟩
                exact RA_head_conv hedge hvis hRA
            · rintro ⟨_, hpath⟩
              rcases RA_head hpath with rfl | ⟨nn, hedge, hnotin, hpath2⟩
              · exact Or.inl rfl
              · refine Or.inr ((mem2 y).mpr ⟨nn, ?_, ⟨hnotin, hpath2⟩⟩)
                rcases (hchar nn).mpr hedge with ⟨p, hp, hpn⟩
                exact List.mem_map.mpr ⟨p, hp, hpn⟩
          · show v2 = visited ∪ (idsOf (start :: l2)).toFinset
            rw [hv2]
            ext z
            show z ∈ insert (GraphNode.identifier start) visited ∪ (idsOf l2).toFinset ↔
              z ∈ visited ∪ (GraphNode.identifier start :: idsOf l2).toFinset
            simp [Finset.mem_union, Finset.mem_insert, List.mem_toFinset]
          · intro pre y post hsplit
            have hsplit2 : GraphNode.identifier start :: idsOf l2 = pre ++ y :: post := hsplit
            cases pre with
            | nil =>
              simp at hsplit2
              exact Or.inl (by simp [hsplit2.1])
            | cons p0 pre2 =>
              rw [List.cons_append] at hsplit2
              injection hsplit2 with h1 h2
              rcases ord2 pre2 y post h2 with hy | ⟨x, hx, he⟩
              · rcases List.mem_map.mp hy with ⟨p, hp, hpy⟩
                refine Or.inr ⟨p0, List.mem_cons_self _ _, ?_⟩
                rw [← h1]
                exact (hchar y).mp ⟨p, hp, hpy⟩
              · exact Or.inr ⟨x, List.mem_cons_of_mem _ hx, he⟩
          · intro t ht
            rcases List.mem_cons.mp ht with rfl | ht2
            · exact hstart
            · exact st2 t ht2
    refine ⟨hA, ?_⟩
    intro idents
    induction idents with
    | nil =>
      intro visited hcard hkeys
      refine ⟨[], visited, Finset.Subset.refl _, ?_, ?_⟩
      · rw [iterList.eq_def]
      · refine ⟨by simp [idsOf], ?_, by simp [idsOf], ?_, by simp⟩
        · intro y
          simp [idsOf]
        · intro pre y post hsplit
          exact absurd hsplit (by simp [idsOf])
    | cons i rest ihL =>
      intro visited hcard hkeys
      rcases Option.isSome_iff_exists.mp (hkeys i (List.mem_cons_self _ _)) with ⟨start, hstart⟩
      rcases hA visited i start hcard hstart with ⟨l1, v1, hs1, heq1, hspec1⟩
      have hcard1 : (nodeIdents g \ v1).card ≤ n :=
        le_trans (Finset.card_le_card
          (Finset.sdiff_subset_sdiff (Finset.Subset.refl _) hs1)) hcard
      rcases ihL v1 hcard1 (fun j hj => hkeys j (List.mem_cons_of_mem _ hj)) with
        ⟨l2, v2, hs2, heq2, hspec2⟩
      obtain ⟨nd1, mem1, hv1, ord1, st1⟩ := hspec1
      obtain ⟨nd2, mem2, hv2, ord2, st2⟩ := hspec2
      have hids : idsOf (l1 ++ l2) = idsOf l1 ++ idsOf l2 := by simp [idsOf]
      have hT : ∀ z, z ∈ v1 ↔ z ∈ visited ∨ RA g visited i z := by
        intro z
        rw [hv1]
        rw [Finset.mem_union, List.mem_toFinset]
        exact or_congr Iff.rfl (mem1 z)
      refine ⟨l1 ++ l2, v2, hs1.trans hs2, ?_, ?_⟩
      · rw [iterList.eq_def]
        simp only [heq1, heq2]
      · refine ⟨?_, ?_, ?_, ?_, ?_⟩
        · rw [hids]
          refine List.Nodup.append nd1 nd2 ?_
          intro a ha1 ha2
          rcases (mem2 a).mp ha2 with ⟨x, hx, hRA⟩
          apply RA_not_mem hRA
          rw [hv1]
          exact Finset.mem_union_right _ (List.mem_toFinset.mpr ha1)
        · intro y
          rw [hids, List.mem_append, mem1 y, mem2 y]
          constructor
          · rintro (hL | ⟨x, hx, hRA⟩)
            · exact ⟨i, List.mem_cons_self _ _, hL⟩
            · exact ⟨x, List.mem_cons_of_mem _ hx, RA_mono hs1 hRA⟩
          · rintro ⟨x, hx, hRA⟩
            rcases List.mem_cons.mp hx with rfl | hx2
            · exact Or.inl hRA
            · rcases RA_telescope hT hRA.1 hRA.2 with hL | hR
              · exact Or.inl hL
              · exact Or.inr ⟨x, hx2, hR⟩
        · rw [hv2, hv1, hids]
          ext z
          simp [Finset.mem_union, List.mem_toFinset]
        · intro pre y post hsplit
          rw [hids] at hsplit
          rcases List.append_eq_append_iff.mp hsplit with ⟨a', ha1, ha2⟩ | ⟨c', hc1, hc2⟩
          · rcases ord2 a' y post ha2 with hy | ⟨x, hx, he⟩
            · exact Or.inl (List.mem_cons_of_mem _ hy)
            · exact Or.inr ⟨x, by rw [ha1]; exact List.mem_append_right _ hx, he⟩
          · cases c' with
            | nil =>
              have h0 : idsOf l2 = [] ++ y :: post := by simpa using hc2.symm
              rcases ord2 [] y post h0 with hy | ⟨x, hx, he⟩
              · exact Or.inl (List.mem_cons_of_mem _ hy)
              · simp at hx
            | cons c0 c'' =>
              rw [List.cons_append] at hc2
              injection hc2 with h1 h2
              rcases ord1 pre y c'' (by rw [hc1, h1]) with hy | ⟨x, hx, he⟩
              · simp at hy
                exact Or.inl (by simp [hy])
              · exact Or.inr ⟨x, hx, he⟩
        · intro t ht
          rcases List.mem_append.mp ht with ht1 | ht2
          · exact st1 t ht1
          · exact st2 t ht2

/-- C4: with no start node, `iter_graph` yields exactly the union of the
reachability closures of the roots, each node once (one visited-set is
shared across roots), in an order where every yielded node is a root or
has an edge from an earlier-yielded node, and — being a total function —
it terminates on cyclic graphs, including edges back to a root; with an
explicit start node it raises `KeyError` when the start is absent and
otherwise yields the reachability closure of the start. -/
theorem C4_iter_graph_reachability [GraphNode T] (g : ObjectGraph T A)
    (hInv : Invariant g) :
    (∀ ref : NodeRef T, find_node g ref = Option.none →
      ∃ msg, iter_graph g (some ref) = .error (.keyError msg)) ∧
    (∀ (ref : NodeRef T) (start : T), find_node g ref = some start →
      ∃ l : List T, iter_graph g (some ref) = .ok l ∧
        (idsOf l).Nodup ∧
        (∀ y, y ∈ idsOf l ↔ ReachG g (refIdent ref) y) ∧
        OrdOK g [refIdent ref] (idsOf l)) ∧
    (∃ l : List T, iter_graph g Option.none = .ok l ∧
      (idsOf l).Nodup ∧
      (∀ y, y ∈ idsOf l ↔ ∃ r ∈ g._roots, ReachG g r y) ∧
      OrdOK g g._roots (idsOf l)) := by
  refine ⟨?_, ?_, ?_⟩
  · intro ref hnone
    refine ⟨"Start node " ++ refIdent ref ++ " not found", ?_⟩
    have h2 : dictGet g._nodes (refIdent ref) = Option.none := by
      rw [← find_node_eq]
      exact hnone
    have h3 : iterFrom g (refIdent ref) (∅ : Finset String) =
        .error (.keyError ("Start node " ++ refIdent ref ++ " not found")) := by
      rw [iterFrom.eq_def]
      split
      · rfl
      · rename_i start heq
        rw [h2] at heq
        exact Option.noConfusion heq
    unfold iter_graph
    show (match iterFrom g (refIdent ref) (∅ : Finset String) with
      | Except.error e => Except.error e
      | Except.ok (l, _) => Except.ok l) = _
    rw [h3]
  · intro ref start hfind
    have h2 : dictGet g._nodes (refIdent ref) = some start := by
      rw [← find_node_eq]
      exact hfind
    rcases (iter_spec g hInv (nodeIdents g \ ∅).card).1 ∅ (refIdent ref) start
        (le_refl _) h2 with ⟨l, v, hs, heq, hnd, hmem, _, hord, _⟩
    refine ⟨l, ?_, hnd, ?_, hord⟩
    · unfold iter_graph
      show (match iterFrom g (refIdent ref) (∅ : Finset String) with
        | Except.error e => Except.error e
        | Except.ok (l, _) => Except.ok l) = Except.ok l
      rw [heq]
    · intro y
      rw [hmem y, RA_empty_iff]
  · rcases (iter_spec g hInv (nodeIdents g \ ∅).card).2 g._roots ∅ (le_refl _)
        (fun r hr => hInv.2.2.1 r hr) with ⟨l, v, hs, heq, hnd, hmem, _, hord, _⟩
    refine ⟨l, ?_, hnd, ?_, hord⟩
    · unfold iter_graph
      show (match iterList g g._roots (∅ : Finset String) with
        | Except.error e => Except.error e
        | Except.ok (l, _) => Except.ok l) = Except.ok l
      rw [heq]
    · intro y
      rw [hmem y]
      constructor
      · rintro ⟨x, hx, hRA⟩
        exact ⟨x, hx, RA_empty_iff.mp hRA⟩
      · rintro ⟨x, hx, hR⟩
        exact ⟨x, hx, RA_empty_iff.mpr hR⟩

/-- Witness for C4 at the concrete sample graph, whose edge C→A closes
a cycle back to the root. -/
theorem C4_iter_graph_reachability_witness :
    Invariant sampleGraph ∧
    ((∀ ref : NodeRef SNode, find_node sampleGraph ref = Option.none →
      ∃ msg, iter_graph sampleGraph (some ref) = .error (.keyError msg)) ∧
    (∀ (ref : NodeRef SNode) (start : SNode), find_node sampleGraph ref = some start →
      ∃ l : List SNode, iter_graph sampleGraph (some ref) = .ok l ∧
        (idsOf l).Nodup ∧
        (∀ y, y ∈ idsOf l ↔ ReachG sampleGraph (refIdent ref) y) ∧
        OrdOK sampleGraph [refIdent ref] (idsOf l)) ∧
    (∃ l : List SNode, iter_graph sampleGraph Option.none = .ok l ∧
      (idsOf l).Nodup ∧
      (∀ y, y ∈ idsOf l ↔ ∃ r ∈ sampleGraph._roots, ReachG sampleGraph r y) ∧
      OrdOK sampleGraph sampleGraph._roots (idsOf l))) :=
  ⟨by unfold Invariant; decide,
   C4_iter_graph_reachability sampleGraph (by unfold Invariant; decide)⟩

theorem countCodes_pos (c : Code) : 1 ≤ c.countCodes := by
  cases c with
  | mk cs ns ins =>
    show 1 ≤ 1 + ConstList.countCodes cs
    omega

theorem countCodes_eq (c : Code) :
    c.countCodes = 1 + ConstList.countCodes c.co_consts := by
  cases c with
  | mk cs ns ins => rfl

theorem childCodes_countCodes_list :
    ∀ cl : ConstList,
      ((cl.toList.filterMap (fun k =>
        match k with
        | Const.code cc => some cc
        | _ => Option.none)).map Code.countCodes).sum = ConstList.countCodes cl
  | ConstList.nil => rfl
  | ConstList.cons c tl => by
    have ih := childCodes_countCodes_list tl
    cases c <;>
      simp [ConstList.toList, ConstList.countCodes, Const.countCodes,
        List.filterMap_cons, ih]

theorem childCodes_countCodes (c : Code) :
    ((c.childCodes).map Code.countCodes).sum = ConstList.countCodes c.co_consts := by
  unfold Code.childCodes
  exact childCodes_countCodes_list c.co_consts

/-- The work-queue loop's result does not depend on the fuel as long as
the fuel covers the number of remaining pops — so the fuel-carrying
translation computes exactly what the source's unbounded `while`
loop does. -/
theorem extractLoop_fuel_irrelevant :
    ∀ (n f1 f2 : Nat) (q : List (Code × List Code)) (acc : ExtractState),
      queueCodes q ≤ n → queueCodes q ≤ f1 → queueCodes q ≤ f2 →
      extractLoop f1 q acc = extractLoop f2 q acc := by
  intro n
  induction n with
  | zero =>
    intro f1 f2 q acc hn h1 h2
    cases q with
    | nil => cases f1 <;> cases f2 <;> rfl
    | cons p rest =>
      exfalso
      have hpos := countCodes_pos p.1
      have : queueCodes (p :: rest) = p.1.countCodes + queueCodes rest := by
        simp [queueCodes]
      omega
  | succ n ih =>
    intro f1 f2 q acc hn h1 h2
    cases q with
    | nil => cases f1 <;> cases f2 <;> rfl
    | cons p rest =>
      rcases p with ⟨current, parents⟩
      have hpos := countCodes_pos current
      have hq : queueCodes ((current, parents) :: rest) =
          current.countCodes + queueCodes rest := by
        simp [queueCodes]
      cases f1 with
      | zero => exfalso; omega
      | succ f1' =>
        cases f2 with
        | zero => exfalso; omega
        | succ f2' =>
          unfold extractLoop
          cases hes : extract_single current
              (is_code_for_function current parents acc.all_func_codes)
              (constMem acc.all_class_codes (.code current)) with
          | error e => simp only [hes]
          | ok st =>
            simp only [hes]
            have hq2 : queueCodes (rest ++
                current.childCodes.map (fun ch => (ch, parents ++ [ch]))) =
                queueCodes rest + ConstList.countCodes current.co_consts := by
              unfold queueCodes
              rw [List.map_append, List.sum_append, List.map_map]
              have hcomp : ((fun p : Code × List Code => p.1.countCodes) ∘
                  fun ch => (ch, parents ++ [ch])) = Code.countCodes := rfl
              rw [hcomp, childCodes_countCodes]
            apply ih
            · rw [hq2]
              rw [countCodes_eq] at hq
              omega
            · rw [hq2]
              rw [countCodes_eq] at hq
              omega
            · rw [hq2]
              rw [countCodes_eq] at hq
              omega

/-- Any fuel at least the tree's code-object count computes the same
analysis result as `extract_bytecode_info`. -/
theorem extract_bytecode_info_fuel (code : Code) (f : Nat)
    (hf : code.countCodes ≤ f) :
    extractLoop f [(code, [])] ⟨[], [], [], [], []⟩ = extract_bytecode_info code := by
  unfold extract_bytecode_info
  exact extractLoop_fuel_irrelevant f f code.countCodes [(code, [])] ⟨[], [], [], [], []⟩
    (by simpa [queueCodes] using hf) (by simpa [queueCodes] using hf)
    (by simp [queueCodes])
